import Mathlib

/-!
# Verification of the X86 preserve-none pass (`X86PreserveNoneFuncList.cpp`)

This file gives a shallow embedding of the two components of the pass:

* the infection module pass `X86PreserveNoneInfectionPass::runOnModule`, a
  worklist fixed point that propagates the `no_callee_saved_registers`
  attribute from seed functions to their (transitive) callers; and
* the registry writer/loader `X86PreserveNonePass::WritePreserveNoneList` /
  `LoadPreserveNoneList`, which append function names to a shared text file
  and reload them.

Machine state that the C++ code leaves implicit (the `MachineModuleInfo`
lookup, the file system, failing opens and locks) is made explicit as record
fields and environment parameters.  Undefined behaviour of the traversal
(dereferencing a null `MachineFunction*` popped from the worklist, and
`cast<CallBase>` applied to a user that is not a call) is modelled by
distinguished crash results rather than being assumed away.
-/

set_option autoImplicit false

namespace X86PreserveNone

/-- A use of a `Function` value, as seen through `F.users()`.
`call caller asCallee` is a use whose user is a `CallBase` instruction that
lives in the function with index `caller`; `asCallee` records whether the use
is as the called operand of that call (as opposed to, e.g., an argument
operand, whose user is still a `CallBase`).  `other` is any non-call user
(store, global initializer, cast, ...). -/
inductive Usr where
  | call (caller : Nat) (asCallee : Bool)
  | other
deriving DecidableEq

/-- The fields of an LLVM `Function` (plus its `MachineFunction` association)
that `X86PreserveNoneFuncList.cpp` reads or writes.  `attrNoCSR` is the
presence of the string attribute `no_callee_saved_registers` (the one the
pass adds), `attrPreserveNone` the attribute `preserve_none`,
`ccPreserveNone` whether the calling convention is
`CallingConv::PreserveNone`.  `hasMF` records whether
`MMI.getMachineFunction(F)` is non-null. -/
structure Func where
  isWeakForLinker : Bool
  hasLocalLinkage : Bool
  isDeclaration : Bool
  ccPreserveNone : Bool
  attrNoCSR : Bool
  attrPreserveNone : Bool
  hasMF : Bool
  users : List Usr
deriving DecidableEq

instance : Inhabited Func :=
  ⟨⟨false, false, false, false, false, false, false, []⟩⟩

/-- A module is the list of its functions; indices play the role of
`Function *` identity. -/
def getF (M : List Func) (i : Nat) : Func := (M.get? i).getD default

/-- Lambda `hasPreserveNoneAttr` at line 126 of the source. -/
def hasPreserveNoneAttr (f : Func) : Bool :=
  f.attrNoCSR || f.ccPreserveNone || f.attrPreserveNone

/-- Lambda `isInfectableFunc` at line 122 of the source. -/
def isInfectableFunc (f : Func) : Bool :=
  !f.isWeakForLinker && f.hasLocalLinkage && !f.isDeclaration

def isCallUser : Usr → Bool
  | .call _ _ => true
  | .other => false

/-- Condition actually tested at lines 160-162 of the source: every user of
the function is a `CallBase` (`!llvm::any_of(F.users(), !isa<CallBase>)`). -/
def allUsersAreCallBase (f : Func) : Bool := f.users.all isCallUser

/-- Predicate `allUsesAreDirectCalls` written from the SPEC text, for
comparison with `allUsersAreCallBase`: every use of the function is as the
direct callee of a call instruction (no address-taken use, no use as an
argument or other value operand of a call). -/
def allUsesAreDirectCalls (f : Func) : Bool :=
  f.users.all fun u => match u with
    | .call _ asCallee => asCallee
    | .other => false

/-- Effect of `F.addFnAttr("no_callee_saved_registers", "1")` (line 179). -/
def markInfected (f : Func) : Func := { f with attrNoCSR := true }

/-- Combined eligibility used by step 4 of the traversal: infectable and all
users are call instructions. -/
def elig (f : Func) : Bool := isInfectableFunc f && allUsersAreCallBase f

/-- A function is expanded (its callers are enqueued) iff it already carries
the attribute or is eligible. -/
def expandable (f : Func) : Bool := hasPreserveNoneAttr f || elig f

/-- State of the worklist traversal of `runOnModule`: the (mutating) module,
`VisitedMF` (as the list of visited indices, most recent first), `MFWorkList`
(front of the deque at the head; `none` models a null `MachineFunction*`
pushed by `MMI.getMachineFunction(*Caller)` when the caller has no machine
function), and the process-global statistic `NumPreserveNoneInfected`. -/
structure PropSt where
  funcs : List Func
  visited : List Nat
  work : List (Option Nat)
  stat : Nat
deriving DecidableEq

/-- Result of one iteration of the `while (!MFWorkList.empty())` loop. -/
inductive StepOut where
  | done (st : PropSt)
  | nullMF (st : PropSt)
  | badCast (st : PropSt)
  | next (st : PropSt)
deriving DecidableEq

/-- Model of `MMI.getMachineFunction(*Caller)` (line 169): the caller index
when the caller has a machine function, null otherwise.  A default `Func`
has `hasMF = false`, so out-of-range indices also yield `none`. -/
def callerMF (funcs : List Func) (c : Nat) : Option Nat :=
  if (getF funcs c).hasMF then some c else none

/-- The enqueueing loop at lines 166-175: for each user (all of which are
call instructions when this is reached without crashing), push the caller's
machine function unless that machine function is already visited or the
caller already carries the attribute. -/
def enqueueCallers (funcs : List Func) (visited : List Nat) (users : List Usr) :
    List (Option Nat) :=
  users.filterMap fun u =>
    match u with
    | .call c _ =>
      let cmf := callerMF funcs c
      if (match cmf with
          | some j => decide (j ∈ visited)
          | none => false) || hasPreserveNoneAttr (getF funcs c) then
        none
      else
        some cmf
    | .other => none

/-- One iteration of the worklist loop (lines 150-183).  `nullMF` models the
null dereference `MF->getFunction()` on a null pointer popped from the
worklist; `badCast` models `cast<CallBase>(U)` applied to a non-call user
(reachable only when the popped function already has the attribute, since
otherwise step 4 checked `allUsersAreCallBase`). -/
def propStep (st : PropSt) : StepOut :=
  match st.work with
  | [] => .done st
  | w :: rest =>
    match w with
    | none => .nullMF st
    | some i =>
      if i ∈ st.visited then .next { st with work := rest }
      else
        let f := getF st.funcs i
        let vis' := i :: st.visited
        if !hasPreserveNoneAttr f &&
            (!isInfectableFunc f || !allUsersAreCallBase f) then
          .next { st with visited := vis', work := rest }
        else if !allUsersAreCallBase f then
          .badCast { st with visited := vis' }
        else
          let work' := rest ++ enqueueCallers st.funcs vis' f.users
          if hasPreserveNoneAttr f then
            .next { st with visited := vis', work := work' }
          else
            .next ⟨st.funcs.set i (markInfected f), vis', work', st.stat + 1⟩

/-- Overall outcome of a run of the module pass. -/
inductive RunRes where
  | ok
  | nullMF
  | badCast
  | fuelOut
deriving DecidableEq

/-- The worklist loop, driven by explicit fuel; `propFuel` below always
suffices (theorem for claim C7), so `fuelOut` is unreachable from
`runOnModule`. -/
def propLoop : Nat → PropSt → RunRes × PropSt
  | 0, st => (.fuelOut, st)
  | fuel + 1, st =>
    match propStep st with
    | .done st' => (.ok, st')
    | .nullMF st' => (.nullMF, st')
    | .badCast st' => (.badCast, st')
    | .next st' => propLoop fuel st'

/-- Total number of uses recorded in the module. -/
def totalUsers (M : List Func) : Nat := (M.map fun f => f.users.length).sum

/-- The seeding loop at lines 136-148: every function that has a machine
function and already carries the attribute is pushed. -/
def seedWork (M : List Func) : List (Option Nat) :=
  (List.range M.length).filterMap fun i =>
    if (getF M i).hasMF && hasPreserveNoneAttr (getF M i) then
      some (some i)
    else
      none

def propFuel (M : List Func) : Nat :=
  M.length + M.length * (totalUsers M + 2) + 1

/-- Result of `runOnModule`: crash kind (`ok` when none), final module,
returned boolean, and final value of the statistic. -/
structure RunOut where
  res : RunRes
  funcs : List Func
  changed : Bool
  stat : Nat
deriving DecidableEq

/-- Model of `X86PreserveNoneInfectionPass::runOnModule` (lines 112-186).
`infectOpt` is the command-line flag `-x86-preserve-none-infect`; `stat0` is
the value of the process-global statistic `NumPreserveNoneInfected` when the
pass starts.  The returned boolean is literally
`NumPreserveNoneInfected > 0` (line 185), i.e. a test of the cumulative
statistic, not of the number of infections performed by this invocation. -/
def runOnModule (infectOpt : Bool) (M : List Func) (stat0 : Nat) : RunOut :=
  if !infectOpt then ⟨.ok, M, false, stat0⟩
  else if M.isEmpty then ⟨.ok, M, false, stat0⟩
  else
    let r := propLoop (propFuel M) ⟨M, [], seedWork M, stat0⟩
    ⟨r.1, r.2.funcs, decide (r.2.stat > 0), r.2.stat⟩

/-! ## Registry writer and loader

The file operations the writer and loader perform live in LLVM's Support
library, which is not part of `src/`.  They are modelled from their
documented contracts (see the individual doc comments), with environment
records injecting the failures the code tests for. -/

/-- Function names, as the character lists underlying `std::string`. -/
abbrev FName := List Char

/-- State of the registry file: whether the path exists, whether it is a
regular file, and its content. -/
structure FS where
  present : Bool
  regular : Bool
  content : List Char
deriving DecidableEq

/-- Modelled from the spec: failure modes of the LLVM Support file APIs used
by the writer, whose implementations (`raw_fd_ostream`,
`sys::fs::openFileForReadWrite`, `fcntl` advisory locks) are not under
`src/`.  `osOpenFails` makes the `raw_fd_ostream OS(...)` construction at
line 214 fail, `fdOpenFails` the `openFileForReadWrite` at line 221,
`lockFails` the blocking `fcntl(FD, F_SETLKW, ...)` at line 228, and
`writeFails` makes the write of the line through `fds` at line 235 fail
(the data never reaches the file).  `newFD` is the descriptor returned by a
successful open.  Releasing a held advisory lock on a valid descriptor
cannot fail under POSIX, so the unlock at line 239 is modelled as
succeeding. -/
structure WEnv where
  osOpenFails : Bool
  fdOpenFails : Bool
  lockFails : Bool
  writeFails : Bool
  newFD : Nat
deriving DecidableEq

/-- Writer state held in the pass object: the descriptor field `FD` (`0`
standing for "not opened yet", as tested by `if (!this->FD)`) and the
in-process dedup set `FuncNameSet`. -/
structure WState where
  fd : Nat
  names : List FName
deriving DecidableEq

/-- Modelled from the spec: `X86PreserveNonePass::WritePreserveNoneList`
(lines 188-245).  The open semantics of the two opens, which are LLVM
Support code not under `src/`, follow the documented contract of
`sys::fs::CreationDisposition`: opening with `OF_Append` uses
open-or-create-without-truncate (`CD_OpenAlways`) semantics regardless of
the requested disposition, matching the spec sentence "Opens (creating if
absent) the target file for append".  Steps, in source order: skip
declarations; skip names already in `FuncNameSet`; insert the name into
`FuncNameSet`; when `FD` is still `0`, refuse a path that exists but is not
a regular file; construct `raw_fd_ostream OS` (whose only observable effect
is creating the file, since nothing is ever written to `OS`); open the file
again into `this->FD`; take the write lock (on failure the descriptor is
closed and `false` returned); append `<name>\n`; unlock; return `true`.

The result's first component is `some b` for a normal return of `b` and
`none` for a fatal abort: the line is written through the buffered stream
`fds` at line 235 and the function NEVER checks that write.  Per the
documented behaviour of `raw_fd_ostream` (LLVM Support, not under `src/`),
a failed write is detected at the flush in the stream's destructor, which
reports a fatal I/O error and aborts the process at function exit — so on a
write failure nothing is durably appended, the name stays in `FuncNameSet`,
and the caller never observes a `false` return. -/
def WritePreserveNoneList (env : WEnv) (isDecl : Bool) (name : FName)
    (st : WState) (fs : FS) : Option Bool × WState × FS :=
  if isDecl then (some false, st, fs)
  else if name ∈ st.names then (some false, st, fs)
  else
    let st1 : WState := ⟨st.fd, name :: st.names⟩
    if st1.fd == 0 && fs.present && !fs.regular then (some false, st1, fs)
    else if env.osOpenFails || (fs.present && !fs.regular) then
      (some false, st1, fs)
    else
      let fs1 : FS := ⟨true, true, if fs.present then fs.content else []⟩
      if env.fdOpenFails then (some false, st1, fs1)
      else
        let st2 : WState := ⟨env.newFD, st1.names⟩
        if env.lockFails then (some false, st2, fs1)
        else if env.writeFails then (none, st2, fs1)
        else
          (some true, st2, ⟨true, true, fs1.content ++ name ++ [Char.ofNat 10]⟩)

/-- Writing a list of functions (all definitions) one call at a time, with a
fixed environment; returns the final writer state and file. -/
def writeAll (env : WEnv) (names : List FName) (st : WState) (fs : FS) :
    WState × FS :=
  names.foldl (fun p n =>
    let r := WritePreserveNoneList env false n p.1 p.2
    (r.2.1, r.2.2)) (st, fs)

/-- Modelled from the spec: failure mode of `llvm::MemoryBuffer::getFile`
(line 260), whose implementation is not under `src/`: `readFails` makes the
bulk read fail even though the file exists and is regular. -/
structure LEnv where
  readFails : Bool
deriving DecidableEq

/-- Character set of `StringRef::trim()` with the default argument
`" \t\n\v\f\r"`. -/
def isTrimChar (c : Char) : Bool :=
  c = ' ' || c = '\t' || c = Char.ofNat 10 || c = Char.ofNat 11 ||
    c = Char.ofNat 12 || c = Char.ofNat 13

/-- Model of `StringRef::trim()`: drop the characters of `" \t\n\v\f\r"`
from both ends. -/
def trimC (l : List Char) : List Char :=
  ((l.dropWhile isTrimChar).reverse.dropWhile isTrimChar).reverse

/-- Model of `StringRef::split(lines, "\n")` with `KeepEmpty = true`: split
into the (possibly empty) pieces between newline separators.  The result is
always nonempty; splitting the empty buffer yields one empty piece. -/
def splitNl : List Char → List (List Char)
  | [] => [[]]
  | c :: rest =>
    if c = Char.ofNat 10 then [] :: splitNl rest
    else
      match splitNl rest with
      | l :: ls => (c :: l) :: ls
      | [] => [[c]]

/-- Body of the insertion loop at lines 268-272: trim the line; if the
result is nonempty and not yet present, insert it into `FuncNameSet`. -/
def insertLine (s : List FName) (line : List Char) : List FName :=
  let nm := trimC line
  if nm ≠ [] && !decide (nm ∈ s) then nm :: s else s

/-- The insertion loop at lines 268-272, over all split lines. -/
def loadLines (content : List Char) (st : List FName) : List FName :=
  (splitNl content).foldl insertLine st

/-- Model of `X86PreserveNonePass::LoadPreserveNoneList` (lines 247-279).
The loader state is just `FuncNameSet`.  Skip declarations; when the set is
empty, attempt the bulk read (returning `false` outright when the file is
missing, not regular, or unreadable) and insert every nonempty trimmed line;
finally test membership of the function's name (the code also applies the
attribute to the function on a hit; only the returned `Changed` flag and the
set are modelled, the attribute application being determined by the
returned boolean). -/
def LoadPreserveNoneList (env : LEnv) (isDecl : Bool) (name : FName)
    (st : List FName) (fs : FS) : Bool × List FName :=
  if isDecl then (false, st)
  else if st.isEmpty then
    if !fs.present || !fs.regular then (false, st)
    else if env.readFails then (false, st)
    else
      let st' := loadLines fs.content st
      (decide (name ∈ st'), st')
  else (decide (name ∈ st), st)

/-! ## Basic lemmas about module indexing -/

theorem getF_eq_default {M : List Func} {i : Nat} (h : M.length ≤ i) :
    getF M i = default := by
  simp [getF, List.getElem?_eq_none h]

theorem lt_of_hasMF {M : List Func} {i : Nat}
    (h : (getF M i).hasMF = true) : i < M.length := by
  by_contra hlt
  push_neg at hlt
  rw [getF_eq_default hlt] at h
  exact Bool.noConfusion h

theorem getF_mem {M : List Func} {i : Nat} (h : i < M.length) :
    getF M i ∈ M := by
  rw [getF, List.get?_eq_get h, Option.getD_some]
  exact List.get_mem M i h

theorem map_getF_range (M : List Func) :
    (List.range M.length).map (getF M) = M := by
  apply List.ext_get
  · simp
  · intro n h1 h2
    simp only [List.get_map, List.get_range, getF, List.get?_eq_get h2,
      Option.getD_some]

theorem users_length_le_totalUsers {M : List Func} {i : Nat}
    (h : i < M.length) : (getF M i).users.length ≤ totalUsers M := by
  have hm : (getF M i).users.length ∈ M.map fun f => f.users.length :=
    List.mem_map_of_mem _ (getF_mem h)
  exact List.single_le_sum (fun x _ => Nat.zero_le x) _ hm

/-! ## The infected-set characterization of intermediate states -/

/-- Whether index `i` has been infected, given the visited set `vis`:
visited, lacked the attribute, and was eligible. -/
def infCond (M0 : List Func) (vis : List Nat) (i : Nat) : Bool :=
  decide (i ∈ vis) && !hasPreserveNoneAttr (getF M0 i) && elig (getF M0 i)

/-- The module obtained from `M0` by infecting exactly the indices that
`infCond` selects. -/
def funcsOf (M0 : List Func) (vis : List Nat) : List Func :=
  (List.range M0.length).map fun i =>
    if infCond M0 vis i then markInfected (getF M0 i) else getF M0 i

/-- Number of infections performed, given the visited list. -/
def statOf (M0 : List Func) (vis : List Nat) : Nat :=
  (vis.filter fun i =>
    !hasPreserveNoneAttr (getF M0 i) && elig (getF M0 i)).length

theorem length_funcsOf (M0 : List Func) (vis : List Nat) :
    (funcsOf M0 vis).length = M0.length := by
  simp [funcsOf]

theorem elig_default : elig (default : Func) = false := rfl

theorem infCond_of_ge {M0 : List Func} {vis : List Nat} {i : Nat}
    (h : M0.length ≤ i) : infCond M0 vis i = false := by
  simp [infCond, getF_eq_default h, elig_default]

theorem getF_funcsOf (M0 : List Func) (vis : List Nat) {i : Nat}
    (h : i < M0.length) :
    getF (funcsOf M0 vis) i =
      if infCond M0 vis i then markInfected (getF M0 i) else getF M0 i := by
  have h2 : i < (funcsOf M0 vis).length := by rw [length_funcsOf]; exact h
  rw [getF, List.get?_eq_get h2]
  simp only [Option.getD_some, funcsOf]
  simp [List.get_map, List.get_range]

theorem getF_funcsOf_ge (M0 : List Func) (vis : List Nat) {i : Nat}
    (h : M0.length ≤ i) : getF (funcsOf M0 vis) i = default := by
  apply getF_eq_default
  rw [length_funcsOf]; exact h

theorem hasMF_markInfected (f : Func) : (markInfected f).hasMF = f.hasMF := rfl

theorem users_markInfected (f : Func) : (markInfected f).users = f.users := rfl

theorem elig_markInfected (f : Func) : elig (markInfected f) = elig f := rfl

theorem pn_markInfected (f : Func) :
    hasPreserveNoneAttr (markInfected f) = true := by
  simp [hasPreserveNoneAttr, markInfected]

theorem hasMF_funcsOf (M0 : List Func) (vis : List Nat) (i : Nat) :
    (getF (funcsOf M0 vis) i).hasMF = (getF M0 i).hasMF := by
  by_cases h : i < M0.length
  · rw [getF_funcsOf M0 vis h]
    by_cases hc : infCond M0 vis i = true
    · rw [if_pos hc, hasMF_markInfected]
    · rw [if_neg hc]
  · push_neg at h
    rw [getF_funcsOf_ge M0 vis h, getF_eq_default h]

theorem users_funcsOf (M0 : List Func) (vis : List Nat) (i : Nat) :
    (getF (funcsOf M0 vis) i).users = (getF M0 i).users := by
  by_cases h : i < M0.length
  · rw [getF_funcsOf M0 vis h]
    by_cases hc : infCond M0 vis i = true
    · rw [if_pos hc, users_markInfected]
    · rw [if_neg hc]
  · push_neg at h
    rw [getF_funcsOf_ge M0 vis h, getF_eq_default h]

theorem elig_funcsOf (M0 : List Func) (vis : List Nat) (i : Nat) :
    elig (getF (funcsOf M0 vis) i) = elig (getF M0 i) := by
  by_cases h : i < M0.length
  · rw [getF_funcsOf M0 vis h]
    by_cases hc : infCond M0 vis i = true
    · rw [if_pos hc, elig_markInfected]
    · rw [if_neg hc]
  · push_neg at h
    rw [getF_funcsOf_ge M0 vis h, getF_eq_default h]

theorem pn_funcsOf (M0 : List Func) (vis : List Nat) (i : Nat) :
    hasPreserveNoneAttr (getF (funcsOf M0 vis) i) =
      (hasPreserveNoneAttr (getF M0 i) || infCond M0 vis i) := by
  by_cases h : i < M0.length
  · rw [getF_funcsOf M0 vis h]
    by_cases hc : infCond M0 vis i = true
    · rw [if_pos hc, hc, pn_markInfected, Bool.or_true]
    · rw [if_neg hc, Bool.not_eq_true] at *
      rw [hc, Bool.or_false]
  · push_neg at h
    rw [getF_funcsOf_ge M0 vis h, getF_eq_default h, infCond_of_ge h,
      Bool.or_false]

theorem getF_funcsOf_not_mem (M0 : List Func) {vis : List Nat} {i : Nat}
    (h : i ∉ vis) : getF (funcsOf M0 vis) i = getF M0 i := by
  by_cases hlt : i < M0.length
  · rw [getF_funcsOf M0 vis hlt, if_neg]
    simp [infCond, h]
  · push_neg at hlt
    rw [getF_funcsOf_ge M0 vis hlt, getF_eq_default hlt]

theorem funcsOf_nil (M0 : List Func) : funcsOf M0 [] = M0 := by
  have : ∀ i, infCond M0 [] i = false := by intro i; simp [infCond]
  simp only [funcsOf, this, if_neg Bool.false_ne_true, Bool.false_eq_true,
    if_false]
  exact map_getF_range M0

theorem statOf_nil (M0 : List Func) : statOf M0 [] = 0 := rfl

theorem infCond_cons (M0 : List Func) (vis : List Nat) (i j : Nat) :
    infCond M0 (i :: vis) j =
      (infCond M0 vis j ||
        (decide (j = i) && !hasPreserveNoneAttr (getF M0 j) &&
          elig (getF M0 j))) := by
  by_cases hj : j = i
  · by_cases hm : j ∈ vis <;> simp [infCond, hj, hm, List.mem_cons] <;>
      exact fun _ h1 h2 => ⟨h1, h2⟩
  · by_cases hm : j ∈ vis <;> simp [infCond, hj, hm, List.mem_cons]

theorem statOf_cons (M0 : List Func) (vis : List Nat) (i : Nat) :
    statOf M0 (i :: vis) =
      statOf M0 vis +
        (if (!hasPreserveNoneAttr (getF M0 i) && elig (getF M0 i)) = true
          then 1 else 0) := by
  by_cases h : (!hasPreserveNoneAttr (getF M0 i) && elig (getF M0 i)) = true
  · simp [statOf, List.filter_cons, h]
  · simp [statOf, List.filter_cons, h]

/-! ## Shapes of one worklist iteration -/

theorem propStep_eq_done {st : PropSt} (h : st.work = []) :
    propStep st = .done st := by
  unfold propStep
  rw [h]

theorem propStep_eq_nullMF {st : PropSt} {rest : List (Option Nat)}
    (h : st.work = none :: rest) : propStep st = .nullMF st := by
  unfold propStep
  rw [h]

theorem propStep_eq_skip {st : PropSt} {i : Nat} {rest : List (Option Nat)}
    (h : st.work = some i :: rest) (hv : i ∈ st.visited) :
    propStep st = .next { st with work := rest } := by
  unfold propStep
  rw [h]
  simp [hv]

theorem propStep_eq_stop {st : PropSt} {i : Nat} {rest : List (Option Nat)}
    (h : st.work = some i :: rest) (hv : i ∉ st.visited)
    (hc : (!hasPreserveNoneAttr (getF st.funcs i) &&
      (!isInfectableFunc (getF st.funcs i) ||
        !allUsersAreCallBase (getF st.funcs i))) = true) :
    propStep st = .next { st with visited := i :: st.visited, work := rest } := by
  unfold propStep
  rw [h]
  simp [hv, hc]

theorem propStep_eq_badCast {st : PropSt} {i : Nat} {rest : List (Option Nat)}
    (h : st.work = some i :: rest) (hv : i ∉ st.visited)
    (hc : (!hasPreserveNoneAttr (getF st.funcs i) &&
      (!isInfectableFunc (getF st.funcs i) ||
        !allUsersAreCallBase (getF st.funcs i))) = false)
    (hcb : allUsersAreCallBase (getF st.funcs i) = false) :
    propStep st = .badCast { st with visited := i :: st.visited } := by
  have hpn : hasPreserveNoneAttr (getF st.funcs i) = true := by
    cases hpn : hasPreserveNoneAttr (getF st.funcs i)
    · rw [hpn, hcb] at hc
      simp at hc
    · rfl
  unfold propStep
  rw [h]
  simp [hv, hpn, hcb]

theorem propStep_eq_expand_pn {st : PropSt} {i : Nat} {rest : List (Option Nat)}
    (h : st.work = some i :: rest) (hv : i ∉ st.visited)
    (hcb : allUsersAreCallBase (getF st.funcs i) = true)
    (hpn : hasPreserveNoneAttr (getF st.funcs i) = true) :
    propStep st = .next ⟨st.funcs, i :: st.visited,
      rest ++ enqueueCallers st.funcs (i :: st.visited) (getF st.funcs i).users,
      st.stat⟩ := by
  unfold propStep
  rw [h]
  simp [hv, hcb, hpn]

theorem propStep_eq_infect {st : PropSt} {i : Nat} {rest : List (Option Nat)}
    (h : st.work = some i :: rest) (hv : i ∉ st.visited)
    (hel : elig (getF st.funcs i) = true)
    (hpn : hasPreserveNoneAttr (getF st.funcs i) = false) :
    propStep st = .next ⟨st.funcs.set i (markInfected (getF st.funcs i)),
      i :: st.visited,
      rest ++ enqueueCallers st.funcs (i :: st.visited) (getF st.funcs i).users,
      st.stat + 1⟩ := by
  have hel2 : isInfectableFunc (getF st.funcs i) = true ∧
      allUsersAreCallBase (getF st.funcs i) = true := by
    simpa [elig] using hel
  have hinf := hel2.1
  have hcb := hel2.2
  unfold propStep
  rw [h]
  simp [hv, hcb, hpn, hinf]

/-! ## Helpers on the enqueue list, the seed list and the measure -/

theorem callerMF_eq_some {funcs : List Func} {c : Nat}
    (h : (getF funcs c).hasMF = true) : callerMF funcs c = some c :=
  if_pos h

theorem callerMF_some_inv {funcs : List Func} {c j : Nat}
    (h : callerMF funcs c = some j) :
    j = c ∧ (getF funcs c).hasMF = true := by
  unfold callerMF at h
  by_cases hm : (getF funcs c).hasMF = true
  · rw [if_pos hm] at h
    exact ⟨(Option.some_inj.mp h).symm, hm⟩
  · rw [if_neg hm] at h
    exact Option.noConfusion h

theorem mem_enqueueCallers {funcs : List Func} {vis : List Nat}
    {users : List Usr} {w : Option Nat}
    (h : w ∈ enqueueCallers funcs vis users) :
    ∃ c b, Usr.call c b ∈ users ∧ w = callerMF funcs c ∧
      hasPreserveNoneAttr (getF funcs c) = false ∧
      ∀ j, callerMF funcs c = some j → j ∉ vis := by
  rw [enqueueCallers, List.mem_filterMap] at h
  obtain ⟨u, hu, he⟩ := h
  cases u with
  | other => exact Option.noConfusion he
  | call c b =>
    simp only at he
    by_cases hif : ((match callerMF funcs c with
        | some j => decide (j ∈ vis)
        | none => false) || hasPreserveNoneAttr (getF funcs c)) = true
    · rw [if_pos hif] at he
      exact Option.noConfusion he
    · rw [if_neg hif] at he
      have hw : w = callerMF funcs c := (Option.some_inj.mp he).symm
      rw [Bool.or_eq_true, not_or] at hif
      refine ⟨c, b, hu, hw, ?_, ?_⟩
      · exact Bool.not_eq_true _ ▸ Bool.of_not_eq_true hif.2
      · intro j hj hjm
        apply hif.1
        rw [hj]
        simpa using hjm

theorem enqueueCallers_mem_of {funcs : List Func} {vis : List Nat}
    {users : List Usr} {c : Nat} {b : Bool} (hu : Usr.call c b ∈ users)
    (hmf : (getF funcs c).hasMF = true)
    (hpn : hasPreserveNoneAttr (getF funcs c) = false) (hv : c ∉ vis) :
    some c ∈ enqueueCallers funcs vis users := by
  rw [enqueueCallers, List.mem_filterMap]
  refine ⟨Usr.call c b, hu, ?_⟩
  simp [callerMF_eq_some hmf, hv, hpn]

theorem length_enqueueCallers_le (funcs : List Func) (vis : List Nat)
    (users : List Usr) :
    (enqueueCallers funcs vis users).length ≤ users.length :=
  List.length_filterMap_le _ _

theorem mem_seedWork {M : List Func} {w : Option Nat}
    (h : w ∈ seedWork M) :
    ∃ i, w = some i ∧ (getF M i).hasMF = true ∧
      hasPreserveNoneAttr (getF M i) = true := by
  rw [seedWork, List.mem_filterMap] at h
  obtain ⟨i, _, he⟩ := h
  by_cases hc : ((getF M i).hasMF && hasPreserveNoneAttr (getF M i)) = true
  · rw [if_pos hc] at he
    obtain ⟨h1, h2⟩ : (getF M i).hasMF = true ∧
        hasPreserveNoneAttr (getF M i) = true := by simpa using hc
    exact ⟨i, (Option.some_inj.mp he).symm, h1, h2⟩
  · rw [if_neg hc] at he
    exact Option.noConfusion he

theorem seedWork_mem_of {M : List Func} {i : Nat}
    (hmf : (getF M i).hasMF = true)
    (hpn : hasPreserveNoneAttr (getF M i) = true) :
    some i ∈ seedWork M := by
  rw [seedWork, List.mem_filterMap]
  refine ⟨i, List.mem_range.mpr (lt_of_hasMF hmf), ?_⟩
  simp [hmf, hpn]

theorem length_seedWork_le (M : List Func) :
    (seedWork M).length ≤ M.length := by
  have := List.length_filterMap_le
    (fun i => if (getF M i).hasMF && hasPreserveNoneAttr (getF M i) then
      some (some i) else none) (List.range M.length)
  simpa [seedWork] using this

/-- Measure for the worklist loop: pending work plus, for every not yet
visited function, room for one pop and the enqueues it can cause. -/
def propMeasure (N U : Nat) (st : PropSt) : Nat :=
  st.work.length + (N - st.visited.length) * (U + 2)

theorem length_lt_of_nodup {vis : List Nat} {N i : Nat} (hnd : vis.Nodup)
    (hv : ∀ j ∈ vis, j < N) (hi : i < N) (him : i ∉ vis) :
    vis.length < N := by
  have hnd2 : (i :: vis).Nodup := List.nodup_cons.mpr ⟨him, hnd⟩
  have hsub : (i :: vis).toFinset ⊆ Finset.range N := by
    intro x hx
    rw [List.mem_toFinset] at hx
    rw [Finset.mem_range]
    rcases List.mem_cons.mp hx with h | h
    · exact h ▸ hi
    · exact hv x h
  have hcard := Finset.card_le_card hsub
  rw [List.toFinset_card_of_nodup hnd2, Finset.card_range] at hcard
  simpa using hcard

theorem measure_split {N v K : Nat} (h : v < N) :
    (N - v) * K = (N - (v + 1)) * K + K := by
  have h2 : N - v = (N - (v + 1)) + 1 := by omega
  rw [h2, Nat.succ_mul]

theorem getF_lt {M : List Func} {i : Nat} (h : i < M.length) :
    getF M i = M[i] := by
  simp [getF, List.getElem?_eq_getElem h]

theorem totalUsers_set_mark (funcs : List Func) (i : Nat) :
    totalUsers (funcs.set i (markInfected (getF funcs i))) =
      totalUsers funcs := by
  by_cases h : i < funcs.length
  · unfold totalUsers
    congr 1
    apply List.ext_getElem
    · simp
    · intro n h1 h2
      simp only [List.getElem_map, List.getElem_set]
      by_cases hn : i = n
      · subst hn
        rw [if_pos rfl, users_markInfected, getF_lt h]
      · rw [if_neg hn]
  · push_neg at h
    rw [List.set_eq_of_length_le h]

theorem elig_of_cond_false {f : Func}
    (hc : (!hasPreserveNoneAttr f &&
      (!isInfectableFunc f || !allUsersAreCallBase f)) = false)
    (hpn : hasPreserveNoneAttr f = false) : elig f = true := by
  rw [hpn] at hc
  simp at hc
  simp [elig, hc.1, hc.2]

/-! ## Unconditional termination of the worklist loop -/

/-- Invariant needed for termination alone: lengths are fixed, visited
indices are distinct and in range, worklist entries are in range. -/
structure WeakInv (N U : Nat) (st : PropSt) : Prop where
  hlen : st.funcs.length = N
  husers : totalUsers st.funcs = U
  hnodup : st.visited.Nodup
  hvis : ∀ i ∈ st.visited, i < N
  hwork : ∀ w ∈ st.work, ∀ i, w = some i → i < N

theorem propStep_weak {N U : Nat} {st st' : PropSt} (h : WeakInv N U st)
    (hs : propStep st = .next st') :
    WeakInv N U st' ∧ propMeasure N U st' < propMeasure N U st := by
  cases hw : st.work with
  | nil =>
    rw [propStep_eq_done hw] at hs
    exact StepOut.noConfusion hs
  | cons w rest =>
    cases w with
    | none =>
      rw [propStep_eq_nullMF hw] at hs
      exact StepOut.noConfusion hs
    | some i =>
      have hiN : i < N := h.hwork (some i) (hw ▸ List.mem_cons_self _ _) i rfl
      have hrest : ∀ w ∈ rest, ∀ j, w = some j → j < N := fun w hm j hj =>
        h.hwork w (hw ▸ List.mem_cons_of_mem _ hm) j hj
      by_cases hv : i ∈ st.visited
      · rw [propStep_eq_skip hw hv] at hs
        injection hs with hs
        subst hs
        refine ⟨⟨h.hlen, h.husers, h.hnodup, h.hvis, hrest⟩, ?_⟩
        simp only [propMeasure, hw]
        simp
      · have hvlt : st.visited.length < N :=
          length_lt_of_nodup h.hnodup h.hvis hiN hv
        have hsplit := measure_split (K := totalUsers st.funcs + 2) hvlt
        have hnd' : (i :: st.visited).Nodup :=
          List.nodup_cons.mpr ⟨hv, h.hnodup⟩
        have hvis' : ∀ j ∈ i :: st.visited, j < N := by
          intro j hj
          rcases List.mem_cons.mp hj with hj | hj
          · exact hj ▸ hiN
          · exact h.hvis j hj
        by_cases hc : (!hasPreserveNoneAttr (getF st.funcs i) &&
            (!isInfectableFunc (getF st.funcs i) ||
              !allUsersAreCallBase (getF st.funcs i))) = true
        · rw [propStep_eq_stop hw hv hc] at hs
          injection hs with hs
          subst hs
          refine ⟨⟨h.hlen, h.husers, hnd', hvis', hrest⟩, ?_⟩
          simp only [propMeasure, hw, h.husers] at *
          simp only [List.length_cons]
          omega
        · have husersN : (getF st.funcs i).users.length ≤ U :=
            h.husers ▸ users_length_le_totalUsers (h.hlen ▸ hiN)
          have henq : ∀ vis2, (enqueueCallers st.funcs vis2
              (getF st.funcs i).users).length ≤ U :=
            fun vis2 => le_trans (length_enqueueCallers_le _ _ _) husersN
          have hworkenq : ∀ vis2 w, w ∈ enqueueCallers st.funcs vis2
              (getF st.funcs i).users → ∀ j, w = some j → j < N := by
            intro vis2 w hm j hj
            subst hj
            obtain ⟨c, b, _, hcm, _, _⟩ := mem_enqueueCallers hm
            obtain ⟨hjc, hmf⟩ := callerMF_some_inv hcm.symm
            subst hjc
            exact h.hlen ▸ lt_of_hasMF hmf
          have hwork' : ∀ vis2 w,
              w ∈ rest ++ enqueueCallers st.funcs vis2 (getF st.funcs i).users →
              ∀ j, w = some j → j < N := by
            intro vis2 w hm j hj
            rcases List.mem_append.mp hm with hm | hm
            · exact hrest w hm j hj
            · exact hworkenq vis2 w hm j hj
          by_cases hcb : allUsersAreCallBase (getF st.funcs i) = true
          · by_cases hpn : hasPreserveNoneAttr (getF st.funcs i) = true
            · rw [propStep_eq_expand_pn hw hv hcb hpn] at hs
              injection hs with hs
              subst hs
              refine ⟨⟨h.hlen, h.husers, hnd', hvis', hwork' _⟩, ?_⟩
              have hlenq := henq (i :: st.visited)
              simp only [propMeasure, hw, h.husers] at *
              simp only [List.length_cons, List.length_append]
              omega
            · have hpn2 : hasPreserveNoneAttr (getF st.funcs i) = false :=
                Bool.not_eq_true _ ▸ Bool.of_not_eq_true hpn
              have hel : elig (getF st.funcs i) = true :=
                elig_of_cond_false (Bool.not_eq_true _ ▸ Bool.of_not_eq_true hc)
                  hpn2
              rw [propStep_eq_infect hw hv hel hpn2] at hs
              injection hs with hs
              subst hs
              refine ⟨⟨?_, ?_, hnd', hvis', hwork' _⟩, ?_⟩
              · simp [h.hlen]
              · rw [totalUsers_set_mark]
                exact h.husers
              · have hlenq := henq (i :: st.visited)
                simp only [propMeasure, hw, h.husers] at *
                simp only [List.length_cons, List.length_append]
                omega
          · have hcb2 : allUsersAreCallBase (getF st.funcs i) = false :=
              Bool.not_eq_true _ ▸ Bool.of_not_eq_true hcb
            rw [propStep_eq_badCast hw hv
              (Bool.not_eq_true _ ▸ Bool.of_not_eq_true hc) hcb2] at hs
            exact StepOut.noConfusion hs

theorem propLoop_no_fuelOut {N U : Nat} : ∀ (fuel : Nat) (st : PropSt),
    WeakInv N U st → propMeasure N U st < fuel →
    (propLoop fuel st).1 ≠ RunRes.fuelOut ∧
      (propLoop fuel st).2.visited.Nodup := by
  intro fuel
  induction fuel with
  | zero => intro st _ hm; omega
  | succ n ih =>
    intro st hinv hm
    cases hw : st.work with
    | nil =>
      simp only [propLoop, propStep_eq_done hw]
      exact ⟨by simp, hinv.hnodup⟩
    | cons w rest =>
      cases w with
      | none =>
        simp only [propLoop, propStep_eq_nullMF hw]
        exact ⟨by simp, hinv.hnodup⟩
      | some i =>
        by_cases hv : i ∈ st.visited
        · have hs := propStep_eq_skip hw hv
          have hstep := propStep_weak hinv hs
          simp only [propLoop, hs]
          exact ih _ hstep.1 (by omega)
        · by_cases hc : (!hasPreserveNoneAttr (getF st.funcs i) &&
              (!isInfectableFunc (getF st.funcs i) ||
                !allUsersAreCallBase (getF st.funcs i))) = true
          · have hs := propStep_eq_stop hw hv hc
            have hstep := propStep_weak hinv hs
            simp only [propLoop, hs]
            exact ih _ hstep.1 (by omega)
          · by_cases hcb : allUsersAreCallBase (getF st.funcs i) = true
            · by_cases hpn : hasPreserveNoneAttr (getF st.funcs i) = true
              · have hs := propStep_eq_expand_pn hw hv hcb hpn
                have hstep := propStep_weak hinv hs
                simp only [propLoop, hs]
                exact ih _ hstep.1 (by omega)
              · have hpn2 : hasPreserveNoneAttr (getF st.funcs i) = false :=
                  Bool.not_eq_true _ ▸ Bool.of_not_eq_true hpn
                have hel : elig (getF st.funcs i) = true :=
                  elig_of_cond_false
                    (Bool.not_eq_true _ ▸ Bool.of_not_eq_true hc) hpn2
                have hs := propStep_eq_infect hw hv hel hpn2
                have hstep := propStep_weak hinv hs
                simp only [propLoop, hs]
                exact ih _ hstep.1 (by omega)
            · have hcb2 : allUsersAreCallBase (getF st.funcs i) = false :=
                Bool.not_eq_true _ ▸ Bool.of_not_eq_true hcb
              have hs := propStep_eq_badCast hw hv
                (Bool.not_eq_true _ ▸ Bool.of_not_eq_true hc) hcb2
              simp only [propLoop, hs]
              refine ⟨by simp, ?_⟩
              exact List.nodup_cons.mpr ⟨hv, hinv.hnodup⟩

theorem initial_WeakInv (M : List Func) (s : Nat) :
    WeakInv M.length (totalUsers M) ⟨M, [], seedWork M, s⟩ := by
  refine ⟨rfl, rfl, List.nodup_nil, by simp, ?_⟩
  intro w hm j hj
  subst hj
  obtain ⟨i, hi, hmf, _⟩ := mem_seedWork hm
  injection hi with hi
  subst hi
  exact lt_of_hasMF hmf

theorem initial_measure_lt (M : List Func) (s : Nat) :
    propMeasure M.length (totalUsers M) ⟨M, [], seedWork M, s⟩ <
      propFuel M := by
  have h1 := length_seedWork_le M
  simp only [propMeasure, propFuel]
  simp only [List.length_nil, Nat.sub_zero]
  omega

/-! ## Reachability and well-formedness -/

/-- Indices that the traversal reaches: functions that are seeded (machine
function present and attribute set at entry), and callers (with a machine
function) of reached functions that get expanded (attribute already present
or eligible). -/
inductive Reach (M : List Func) : Nat → Prop where
  | seed (i : Nat) (hmf : (getF M i).hasMF = true)
      (hpn : hasPreserveNoneAttr (getF M i) = true) : Reach M i
  | caller (j c : Nat) (b : Bool) (hj : Reach M j)
      (hexp : expandable (getF M j) = true)
      (hu : Usr.call c b ∈ (getF M j).users)
      (hmf : (getF M c).hasMF = true) : Reach M c

/-- Well-formedness of the machine-function association, the precondition
under which the traversal cannot crash: every caller recorded at a call-site
use has a machine function (so `MMI.getMachineFunction(*Caller)` at line 169
is never null), and every function that starts out attributed and seeded has
only call users (so `cast<CallBase>(U)` at line 167 cannot fire on a
non-call user). -/
def wfModule (M : List Func) : Bool :=
  (M.all fun f => f.users.all fun u =>
    match u with
    | .call c _ => (getF M c).hasMF
    | .other => true) &&
  (M.all fun f =>
    !(hasPreserveNoneAttr f && f.hasMF) || allUsersAreCallBase f)

theorem wfModule_parts {M : List Func} (hwf : wfModule M = true) :
    (∀ f ∈ M, ∀ u ∈ f.users, (match u with
      | Usr.call c _ => (getF M c).hasMF
      | Usr.other => true) = true) ∧
    (∀ f ∈ M,
      (!(hasPreserveNoneAttr f && f.hasMF) || allUsersAreCallBase f) = true) := by
  unfold wfModule at hwf
  rw [Bool.and_eq_true] at hwf
  constructor
  · intro f hf u hu
    exact List.all_eq_true.mp (List.all_eq_true.mp hwf.1 f hf) u hu
  · intro f hf
    exact List.all_eq_true.mp hwf.2 f hf

theorem wf_caller_hasMF {M : List Func} (hwf : wfModule M = true) {i c : Nat}
    {b : Bool} (hi : i < M.length) (hu : Usr.call c b ∈ (getF M i).users) :
    (getF M c).hasMF = true := by
  have h := (wfModule_parts hwf).1 _ (getF_mem hi) _ hu
  simpa using h

theorem wf_pn_allCB {M : List Func} (hwf : wfModule M = true) {i : Nat}
    (hpn : hasPreserveNoneAttr (getF M i) = true)
    (hmf : (getF M i).hasMF = true) :
    allUsersAreCallBase (getF M i) = true := by
  have h := (wfModule_parts hwf).2 _ (getF_mem (lt_of_hasMF hmf))
  rw [hpn, hmf] at h
  simpa using h

theorem funcsOf_congr {M0 : List Func} {vis1 vis2 : List Nat}
    (h : ∀ j, infCond M0 vis1 j = infCond M0 vis2 j) :
    funcsOf M0 vis1 = funcsOf M0 vis2 := by
  simp only [funcsOf, h]

theorem infCond_cons_eq {M0 : List Func} {vis : List Nat} {i : Nat}
    (h : (!hasPreserveNoneAttr (getF M0 i) && elig (getF M0 i)) = false ∨
      i ∈ vis) :
    ∀ j, infCond M0 (i :: vis) j = infCond M0 vis j := by
  intro j
  rw [infCond_cons]
  by_cases hj : j = i
  · subst hj
    rcases h with h | h
    · simp [h]
    · simp [infCond, h]
  · simp [hj]

theorem funcsOf_cons_mark {M0 : List Func} {vis : List Nat} {i : Nat}
    (h : (!hasPreserveNoneAttr (getF M0 i) && elig (getF M0 i)) = true) :
    funcsOf M0 (i :: vis) =
      (funcsOf M0 vis).set i (markInfected (getF M0 i)) := by
  apply List.ext_getElem
  · simp [length_funcsOf]
  · intro n h1 h2
    have hn2 : n < M0.length := by
      rw [length_funcsOf] at h1
      exact h1
    rw [List.getElem_set, ← getF_lt h1, getF_funcsOf M0 (i :: vis) hn2]
    by_cases hn : i = n
    · subst hn
      have hcond : infCond M0 (i :: vis) i = true := by
        rw [infCond_cons]
        simp [h]
      rw [if_pos rfl, if_pos hcond]
    · have hd : decide (n = i) = false := by
        simp
        exact fun he => hn he.symm
      have hcond : infCond M0 (i :: vis) n = infCond M0 vis n := by
        rw [infCond_cons, hd]
        simp
      rw [if_neg hn, hcond]
      have h2b : n < (funcsOf M0 vis).length := by
        rw [length_funcsOf]
        exact hn2
      rw [← getF_lt h2b, getF_funcsOf M0 vis hn2]

theorem totalUsers_funcsOf (M0 : List Func) (vis : List Nat) :
    totalUsers (funcsOf M0 vis) = totalUsers M0 := by
  unfold totalUsers
  congr 1
  apply List.ext_getElem
  · simp [length_funcsOf]
  · intro n h1 h2
    have hn1 : n < (funcsOf M0 vis).length := by simpa using h1
    have hn2 : n < M0.length := by simpa using h2
    simp only [List.getElem_map]
    rw [← getF_lt hn1, ← getF_lt hn2, users_funcsOf]

theorem elig_false_of_cond_true {f : Func}
    (hc : (!hasPreserveNoneAttr f &&
      (!isInfectableFunc f || !allUsersAreCallBase f)) = true) :
    elig f = false := by
  rw [Bool.and_eq_true] at hc
  have h2 := hc.2
  rw [Bool.or_eq_true] at h2
  rcases h2 with h2 | h2 <;> simp at h2 <;> simp [elig, h2]

theorem pn_false_of_cond_true {f : Func}
    (hc : (!hasPreserveNoneAttr f &&
      (!isInfectableFunc f || !allUsersAreCallBase f)) = true) :
    hasPreserveNoneAttr f = false := by
  rw [Bool.and_eq_true] at hc
  have h1 := hc.1
  simpa using h1

/-! ## The strong invariant: intermediate states are determined by the
visited list, worklist entries are reachable, and the frontier is covered -/

structure PropInv (M0 : List Func) (s0 : Nat) (st : PropSt) : Prop where
  hfuncs : st.funcs = funcsOf M0 st.visited
  hstat : st.stat = s0 + statOf M0 st.visited
  hnodup : st.visited.Nodup
  hvisR : ∀ i ∈ st.visited, Reach M0 i ∧ (getF M0 i).hasMF = true
  hwork : ∀ w ∈ st.work, ∃ i, w = some i ∧ Reach M0 i ∧
    (getF M0 i).hasMF = true
  hfront : ∀ j ∈ st.visited, expandable (getF M0 j) = true →
    ∀ c b, Usr.call c b ∈ (getF M0 j).users → (getF M0 c).hasMF = true →
      c ∈ st.visited ∨ some c ∈ st.work
  hseed : ∀ i, (getF M0 i).hasMF = true →
    hasPreserveNoneAttr (getF M0 i) = true →
    i ∈ st.visited ∨ some i ∈ st.work

theorem weak_of_strong {M0 : List Func} {s0 : Nat} {st : PropSt}
    (h : PropInv M0 s0 st) : WeakInv M0.length (totalUsers M0) st := by
  refine ⟨?_, ?_, h.hnodup, ?_, ?_⟩
  · rw [h.hfuncs, length_funcsOf]
  · rw [h.hfuncs, totalUsers_funcsOf]
  · intro i hm
    exact lt_of_hasMF (h.hvisR i hm).2
  · intro w hm j hj
    obtain ⟨i, hwi, _, hmf⟩ := h.hwork w hm
    rw [hwi] at hj
    injection hj with hj
    subst hj
    exact lt_of_hasMF hmf

theorem propStep_strong {M0 : List Func} {s0 : Nat} (hwf : wfModule M0 = true)
    {st : PropSt} (h : PropInv M0 s0 st) :
    (st.work = [] ∧ propStep st = .done st) ∨
    (∃ st', propStep st = .next st' ∧ PropInv M0 s0 st') := by
  cases hw : st.work with
  | nil => exact Or.inl ⟨rfl, propStep_eq_done hw⟩
  | cons w rest =>
    right
    obtain ⟨i, hwi, hri, hmfi⟩ := h.hwork w (hw ▸ List.mem_cons_self _ _)
    subst hwi
    have hiN : i < M0.length := lt_of_hasMF hmfi
    have hworkrest : ∀ w2 ∈ rest, ∃ j, w2 = some j ∧ Reach M0 j ∧
        (getF M0 j).hasMF = true := fun w2 hm =>
      h.hwork w2 (hw ▸ List.mem_cons_of_mem _ hm)
    by_cases hv : i ∈ st.visited
    · refine ⟨_, propStep_eq_skip hw hv, ?_⟩
      refine ⟨h.hfuncs, h.hstat, h.hnodup, h.hvisR, hworkrest, ?_, ?_⟩
      · intro j hj hexp c b hu hmf
        have hprev := h.hfront j hj hexp c b hu hmf
        rw [hw] at hprev
        rcases hprev with hc | hc
        · exact Or.inl hc
        · rcases List.mem_cons.mp hc with hc | hc
          · injection hc with hc
            exact Or.inl (by rw [hc]; exact hv)
          · exact Or.inr hc
      · intro j hmf hpn
        have hprev := h.hseed j hmf hpn
        rw [hw] at hprev
        rcases hprev with hc | hc
        · exact Or.inl hc
        · rcases List.mem_cons.mp hc with hc | hc
          · injection hc with hc
            exact Or.inl (by rw [hc]; exact hv)
          · exact Or.inr hc
    · have hF : getF st.funcs i = getF M0 i := by
        rw [h.hfuncs]
        exact getF_funcsOf_not_mem M0 hv
      have hnd' : (i :: st.visited).Nodup := List.nodup_cons.mpr ⟨hv, h.hnodup⟩
      have hvisR' : ∀ j ∈ i :: st.visited,
          Reach M0 j ∧ (getF M0 j).hasMF = true := by
        intro j hj
        rcases List.mem_cons.mp hj with hj | hj
        · exact hj ▸ ⟨hri, hmfi⟩
        · exact h.hvisR j hj
      by_cases hc : (!hasPreserveNoneAttr (getF M0 i) &&
          (!isInfectableFunc (getF M0 i) ||
            !allUsersAreCallBase (getF M0 i))) = true
      · have hc2 : (!hasPreserveNoneAttr (getF st.funcs i) &&
            (!isInfectableFunc (getF st.funcs i) ||
              !allUsersAreCallBase (getF st.funcs i))) = true := by
          rw [hF]
          exact hc
        have hpn0 := pn_false_of_cond_true hc
        have helig0 := elig_false_of_cond_true hc
        have hcondF : (!hasPreserveNoneAttr (getF M0 i) &&
            elig (getF M0 i)) = false := by
          rw [helig0, Bool.and_false]
        refine ⟨_, propStep_eq_stop hw hv hc2, ?_⟩
        refine ⟨?_, ?_, hnd', hvisR', hworkrest, ?_, ?_⟩
        · show st.funcs = funcsOf M0 (i :: st.visited)
          rw [h.hfuncs]
          exact (funcsOf_congr (infCond_cons_eq (Or.inl hcondF))).symm
        · show st.stat = s0 + statOf M0 (i :: st.visited)
          rw [statOf_cons, if_neg (by rw [hcondF]; exact Bool.false_ne_true)]
          simpa using h.hstat
        · intro j hj hexp c b hu hmf
          rcases List.mem_cons.mp hj with hj | hj
          · subst hj
            rw [expandable, hpn0, helig0] at hexp
            exact Bool.noConfusion hexp
          · have hprev := h.hfront j hj hexp c b hu hmf
            rw [hw] at hprev
            rcases hprev with hcc | hcc
            · exact Or.inl (List.mem_cons_of_mem _ hcc)
            · rcases List.mem_cons.mp hcc with hcc | hcc
              · injection hcc with hcc
                exact Or.inl (by rw [hcc]; exact List.mem_cons_self _ _)
              · exact Or.inr hcc
        · intro j hmf hpn
          have hprev := h.hseed j hmf hpn
          rw [hw] at hprev
          rcases hprev with hcc | hcc
          · exact Or.inl (List.mem_cons_of_mem _ hcc)
          · rcases List.mem_cons.mp hcc with hcc | hcc
            · injection hcc with hcc
              exact Or.inl (by rw [hcc]; exact List.mem_cons_self _ _)
            · exact Or.inr hcc
      · have hcF : (!hasPreserveNoneAttr (getF M0 i) &&
            (!isInfectableFunc (getF M0 i) ||
              !allUsersAreCallBase (getF M0 i))) = false :=
          Bool.not_eq_true _ ▸ Bool.of_not_eq_true hc
        -- shared facts for the two expansion cases
        have hexp0 : expandable (getF M0 i) = true := by
          by_cases hpn : hasPreserveNoneAttr (getF M0 i) = true
          · simp [expandable, hpn]
          · have hpn2 : hasPreserveNoneAttr (getF M0 i) = false :=
              Bool.not_eq_true _ ▸ Bool.of_not_eq_true hpn
            simp [expandable, elig_of_cond_false hcF hpn2]
        have hworkenq : ∀ w2 ∈ rest ++ enqueueCallers st.funcs
            (i :: st.visited) (getF st.funcs i).users,
            ∃ j, w2 = some j ∧ Reach M0 j ∧ (getF M0 j).hasMF = true := by
          intro w2 hm
          rcases List.mem_append.mp hm with hm | hm
          · exact hworkrest w2 hm
          · obtain ⟨c, b, hu2, hcm, _, _⟩ := mem_enqueueCallers hm
            rw [hF] at hu2
            have hmfc : (getF M0 c).hasMF = true :=
              wf_caller_hasMF hwf hiN hu2
            have hmfc2 : (getF st.funcs c).hasMF = true := by
              rw [h.hfuncs, hasMF_funcsOf]
              exact hmfc
            refine ⟨c, ?_, Reach.caller i c b hri hexp0 hu2 hmfc, hmfc⟩
            rw [hcm, callerMF_eq_some hmfc2]
        have hfront' : ∀ j ∈ i :: st.visited, expandable (getF M0 j) = true →
            ∀ c b, Usr.call c b ∈ (getF M0 j).users →
            (getF M0 c).hasMF = true →
            c ∈ i :: st.visited ∨ some c ∈ rest ++ enqueueCallers st.funcs
              (i :: st.visited) (getF st.funcs i).users := by
          intro j hj hexp c b hu hmf
          rcases List.mem_cons.mp hj with hj | hj
          · rw [hj] at hexp hu
            by_cases hcv : c ∈ i :: st.visited
            · exact Or.inl hcv
            · by_cases hpnc : hasPreserveNoneAttr (getF M0 c) = true
              · have hprev := h.hseed c hmf hpnc
                rw [hw] at hprev
                rcases hprev with hcc | hcc
                · exact Or.inl (List.mem_cons_of_mem _ hcc)
                · rcases List.mem_cons.mp hcc with hcc | hcc
                  · injection hcc with hcc
                    exact Or.inl (by rw [hcc]; exact List.mem_cons_self _ _)
                  · exact Or.inr (List.mem_append_left _ hcc)
              · have hpnc0 : hasPreserveNoneAttr (getF M0 c) = false :=
                  Bool.not_eq_true _ ▸ Bool.of_not_eq_true hpnc
                have hcv2 : c ∉ st.visited := fun hcc =>
                  hcv (List.mem_cons_of_mem _ hcc)
                have hpnc2 : hasPreserveNoneAttr (getF st.funcs c) = false := by
                  rw [h.hfuncs, pn_funcsOf, hpnc0]
                  simp [infCond, hcv2]
                have hmfc2 : (getF st.funcs c).hasMF = true := by
                  rw [h.hfuncs, hasMF_funcsOf]
                  exact hmf
                have hu2 : Usr.call c b ∈ (getF st.funcs i).users := by
                  rw [hF]
                  exact hu
                exact Or.inr (List.mem_append_right _
                  (enqueueCallers_mem_of hu2 hmfc2 hpnc2 hcv))
          · have hprev := h.hfront j hj hexp c b hu hmf
            rw [hw] at hprev
            rcases hprev with hcc | hcc
            · exact Or.inl (List.mem_cons_of_mem _ hcc)
            · rcases List.mem_cons.mp hcc with hcc | hcc
              · injection hcc with hcc
                exact Or.inl (by rw [hcc]; exact List.mem_cons_self _ _)
              · exact Or.inr (List.mem_append_left _ hcc)
        have hseed' : ∀ j, (getF M0 j).hasMF = true →
            hasPreserveNoneAttr (getF M0 j) = true →
            j ∈ i :: st.visited ∨ some j ∈ rest ++ enqueueCallers st.funcs
              (i :: st.visited) (getF st.funcs i).users := by
          intro j hmf hpn
          have hprev := h.hseed j hmf hpn
          rw [hw] at hprev
          rcases hprev with hcc | hcc
          · exact Or.inl (List.mem_cons_of_mem _ hcc)
          · rcases List.mem_cons.mp hcc with hcc | hcc
            · injection hcc with hcc
              exact Or.inl (by rw [hcc]; exact List.mem_cons_self _ _)
            · exact Or.inr (List.mem_append_left _ hcc)
        by_cases hpn : hasPreserveNoneAttr (getF M0 i) = true
        · have hcb0 : allUsersAreCallBase (getF M0 i) = true :=
            wf_pn_allCB hwf hpn hmfi
          have hcondF : (!hasPreserveNoneAttr (getF M0 i) &&
              elig (getF M0 i)) = false := by
            rw [hpn]
            simp
          refine ⟨_, propStep_eq_expand_pn hw hv (by rw [hF]; exact hcb0)
            (by rw [hF]; exact hpn), ?_⟩
          refine ⟨?_, ?_, hnd', hvisR', hworkenq, hfront', hseed'⟩
          · show st.funcs = funcsOf M0 (i :: st.visited)
            rw [h.hfuncs]
            exact (funcsOf_congr (infCond_cons_eq (Or.inl hcondF))).symm
          · show st.stat = s0 + statOf M0 (i :: st.visited)
            rw [statOf_cons, if_neg (by rw [hcondF]; exact Bool.false_ne_true)]
            simpa using h.hstat
        · have hpn0 : hasPreserveNoneAttr (getF M0 i) = false :=
            Bool.not_eq_true _ ▸ Bool.of_not_eq_true hpn
          have helig0 : elig (getF M0 i) = true := elig_of_cond_false hcF hpn0
          have hcondT : (!hasPreserveNoneAttr (getF M0 i) &&
              elig (getF M0 i)) = true := by
            rw [hpn0, helig0]
            rfl
          refine ⟨_, propStep_eq_infect hw hv (by rw [hF]; exact helig0)
            (by rw [hF]; exact hpn0), ?_⟩
          refine ⟨?_, ?_, hnd', hvisR', hworkenq, hfront', hseed'⟩
          · show st.funcs.set i (markInfected (getF st.funcs i)) =
              funcsOf M0 (i :: st.visited)
            rw [hF, h.hfuncs, funcsOf_cons_mark hcondT]
          · show st.stat + 1 = s0 + statOf M0 (i :: st.visited)
            rw [statOf_cons, if_pos hcondT, h.hstat]
            omega

theorem propLoop_strong {M0 : List Func} {s0 : Nat} (hwf : wfModule M0 = true) :
    ∀ (fuel : Nat) (st : PropSt), PropInv M0 s0 st →
    propMeasure M0.length (totalUsers M0) st < fuel →
    ∃ st2, propLoop fuel st = (.ok, st2) ∧ PropInv M0 s0 st2 ∧
      st2.work = [] := by
  intro fuel
  induction fuel with
  | zero =>
    intro st _ hm
    omega
  | succ n ih =>
    intro st hinv hm
    rcases propStep_strong hwf hinv with ⟨hwk, hs⟩ | ⟨st', hs, hinv'⟩
    · refine ⟨st, ?_, hinv, hwk⟩
      simp only [propLoop, hs]
    · have hmeas := (propStep_weak (weak_of_strong hinv) hs).2
      obtain ⟨st2, hl, hinv2, hwk2⟩ := ih st' hinv' (by omega)
      refine ⟨st2, ?_, hinv2, hwk2⟩
      simp only [propLoop, hs]
      exact hl

theorem initial_PropInv (M : List Func) (s : Nat) :
    PropInv M s ⟨M, [], seedWork M, s⟩ := by
  refine ⟨(funcsOf_nil M).symm, by simp [statOf_nil], List.nodup_nil,
    ?_, ?_, ?_, ?_⟩
  · intro i hm
    simp at hm
  · intro w hm
    obtain ⟨i, hwi, hmf, hpn⟩ := mem_seedWork hm
    exact ⟨i, hwi, Reach.seed i hmf hpn, hmf⟩
  · intro j hj _ c b _ _
    simp at hj
  · intro i hmf hpn
    exact Or.inr (seedWork_mem_of hmf hpn)

theorem visited_iff_Reach {M0 : List Func} {s0 : Nat} {st : PropSt}
    (h : PropInv M0 s0 st) (hwk : st.work = []) :
    ∀ i, i ∈ st.visited ↔ Reach M0 i := by
  intro i
  constructor
  · exact fun hm => (h.hvisR i hm).1
  · intro hr
    induction hr with
    | seed j hmf hpn =>
      rcases h.hseed j hmf hpn with hm | hm
      · exact hm
      · rw [hwk] at hm
        simp at hm
    | caller j c b hj hexp hu hmf ihj =>
      rcases h.hfront j ihj hexp c b hu hmf with hm | hm
      · exact hm
      · rw [hwk] at hm
        simp at hm

/-- Characterization of a full run under well-formedness: the pass returns
without crashing, the final module marks exactly the reachable, eligible,
not-yet-attributed functions, the statistic counts them on top of its
initial value, and the returned boolean tests the cumulative statistic. -/
theorem runOnModule_char (M : List Func) (s : Nat) (hwf : wfModule M = true)
    (hne : M.isEmpty = false) :
    ∃ vis, (∀ i, i ∈ vis ↔ Reach M i) ∧ vis.Nodup ∧
      runOnModule true M s =
        ⟨.ok, funcsOf M vis, decide (s + statOf M vis > 0),
          s + statOf M vis⟩ := by
  obtain ⟨st2, hl, hinv2, hwk2⟩ := propLoop_strong hwf (propFuel M)
    ⟨M, [], seedWork M, s⟩ (initial_PropInv M s) (initial_measure_lt M s)
  refine ⟨st2.visited, visited_iff_Reach hinv2 hwk2, hinv2.hnodup, ?_⟩
  unfold runOnModule
  rw [if_neg (by simp), if_neg (by simp [hne])]
  simp only [hl]
  rw [hinv2.hfuncs, hinv2.hstat]

/-! ## Idempotence infrastructure: a second run changes nothing -/

theorem allCB_funcsOf (M : List Func) (vis : List Nat) (i : Nat) :
    allUsersAreCallBase (getF (funcsOf M vis) i) =
      allUsersAreCallBase (getF M i) := by
  unfold allUsersAreCallBase
  rw [users_funcsOf]

theorem expandable_funcsOf_of {M : List Func} {vis : List Nat} {j : Nat}
    (h : expandable (getF M j) = true) :
    expandable (getF (funcsOf M vis) j) = true := by
  rw [expandable, pn_funcsOf, elig_funcsOf]
  rw [expandable] at h
  cases hpn : hasPreserveNoneAttr (getF M j) <;>
    cases hel : elig (getF M j) <;> simp_all

theorem expandable_funcsOf_inv {M : List Func} {vis : List Nat} {j : Nat}
    (h : expandable (getF (funcsOf M vis) j) = true) :
    expandable (getF M j) = true := by
  rw [expandable, pn_funcsOf, elig_funcsOf] at h
  rw [expandable]
  cases hpn : hasPreserveNoneAttr (getF M j) <;>
    cases hel : elig (getF M j) <;> simp_all [infCond]

theorem Reach_funcsOf_iff (M : List Func) (vis : List Nat)
    (hvisR : ∀ i ∈ vis, Reach M i) (i : Nat) :
    Reach (funcsOf M vis) i ↔ Reach M i := by
  constructor
  · intro h
    induction h with
    | seed j hmf hpn =>
      rw [hasMF_funcsOf] at hmf
      rw [pn_funcsOf, Bool.or_eq_true] at hpn
      rcases hpn with hpn | hpn
      · exact Reach.seed j hmf hpn
      · rw [infCond, Bool.and_eq_true, Bool.and_eq_true] at hpn
        exact hvisR j (of_decide_eq_true hpn.1.1)
    | caller j c b hj hexp hu hmf ihj =>
      rw [users_funcsOf] at hu
      rw [hasMF_funcsOf] at hmf
      exact Reach.caller j c b ihj (expandable_funcsOf_inv hexp) hu hmf
  · intro h
    induction h with
    | seed j hmf hpn =>
      refine Reach.seed j ?_ ?_
      · rw [hasMF_funcsOf]
        exact hmf
      · rw [pn_funcsOf, hpn]
        rfl
    | caller j c b hj hexp hu hmf ihj =>
      refine Reach.caller j c b ihj (expandable_funcsOf_of hexp) ?_ ?_
      · rw [users_funcsOf]
        exact hu
      · rw [hasMF_funcsOf]
        exact hmf

theorem wfModule_funcsOf {M : List Func} (vis : List Nat)
    (hwf : wfModule M = true) : wfModule (funcsOf M vis) = true := by
  unfold wfModule
  rw [Bool.and_eq_true]
  constructor <;> rw [List.all_eq_true] <;> intro f hf <;>
    obtain ⟨i, hir, hfe⟩ := List.mem_map.mp hf <;>
    have hiN : i < M.length := List.mem_range.mp hir <;>
    have hfe2 : f = getF (funcsOf M vis) i := by
      rw [getF_funcsOf M vis hiN, ← hfe]
  · rw [List.all_eq_true]
    intro u hu
    rw [hfe2, users_funcsOf] at hu
    cases u with
    | call c b =>
      show (getF (funcsOf M vis) c).hasMF = true
      rw [hasMF_funcsOf]
      exact wf_caller_hasMF hwf hiN hu
    | other => rfl
  · rw [hfe2, pn_funcsOf, hasMF_funcsOf, allCB_funcsOf]
    by_cases hmf : (getF M i).hasMF = true
    · by_cases hpn : hasPreserveNoneAttr (getF M i) = true
      · rw [wf_pn_allCB hwf hpn hmf, Bool.or_true]
      · by_cases hic : infCond M vis i = true
        · have helig : elig (getF M i) = true := by
            rw [infCond, Bool.and_eq_true] at hic
            exact hic.2
          have hcb : allUsersAreCallBase (getF M i) = true := by
            rw [elig, Bool.and_eq_true] at helig
            exact helig.2
          rw [hcb, Bool.or_true]
        · simp at hpn hic
          rw [hpn, hic]
          rfl
    · simp at hmf
      rw [hmf]
      cases hasPreserveNoneAttr (getF M i) || infCond M vis i <;>
        cases allUsersAreCallBase (getF M i) <;> rfl

theorem funcsOf_eq_self {M : List Func} {vis : List Nat}
    (h : ∀ j, infCond M vis j = false) : funcsOf M vis = M := by
  simp only [funcsOf, h, Bool.false_eq_true, if_false]
  exact map_getF_range M

theorem no_second_infection {M : List Func} {vis vis2 : List Nat}
    (hvis : ∀ i, i ∈ vis ↔ Reach M i)
    (hvis2 : ∀ i, i ∈ vis2 ↔ Reach (funcsOf M vis) i) (j : Nat) :
    infCond (funcsOf M vis) vis2 j = false := by
  by_cases hm : j ∈ vis2
  · have hR1 : Reach (funcsOf M vis) j := (hvis2 j).mp hm
    have hR0 : Reach M j :=
      (Reach_funcsOf_iff M vis (fun i hi => (hvis i).mp hi) j).mp hR1
    have hjv : j ∈ vis := (hvis j).mpr hR0
    unfold infCond
    rw [pn_funcsOf, elig_funcsOf]
    cases hpn0 : hasPreserveNoneAttr (getF M j) <;>
      cases hel0 : elig (getF M j) <;>
      simp [infCond, hjv, hpn0, hel0]
  · simp [infCond, hm]

theorem statOf_second (M : List Func) (vis vis2 : List Nat)
    (hvis : ∀ i, i ∈ vis ↔ Reach M i)
    (hvis2 : ∀ i, i ∈ vis2 ↔ Reach (funcsOf M vis) i) :
    statOf (funcsOf M vis) vis2 = 0 := by
  unfold statOf
  rw [List.length_eq_zero, List.filter_eq_nil]
  intro a ha
  have h := no_second_infection hvis hvis2 a
  have hd : decide (a ∈ vis2) = true := decide_eq_true ha
  rw [infCond, hd, Bool.true_and] at h
  simp [h]

/-! ## Writer lemmas -/

/-- The newline character written by `fds << MF.getName() << "\n"`. -/
def nlChar : Char := Char.ofNat 10

/-- File content produced by appending each name as its own line. -/
def flatNames (names : List FName) : List Char :=
  (names.map fun n => n ++ [nlChar]).join

theorem write_decl (env : WEnv) (name : FName) (st : WState) (fs : FS) :
    WritePreserveNoneList env true name st fs = (some false, st, fs) := by
  simp [WritePreserveNoneList]

theorem write_dup (env : WEnv) {name : FName} {st : WState} (fs : FS)
    (h : name ∈ st.names) :
    WritePreserveNoneList env false name st fs = (some false, st, fs) := by
  simp [WritePreserveNoneList, h]

theorem write_fresh_regular {env : WEnv}
    (hg : env.osOpenFails = false ∧ env.fdOpenFails = false ∧
      env.lockFails = false ∧ env.writeFails = false)
    {name : FName} {st : WState} (hnm : name ∉ st.names) (C : List Char) :
    WritePreserveNoneList env false name st ⟨true, true, C⟩ =
      (some true, ⟨env.newFD, name :: st.names⟩,
        ⟨true, true, C ++ name ++ [nlChar]⟩) := by
  simp [WritePreserveNoneList, hnm, hg.1, hg.2.1, hg.2.2.1, hg.2.2.2, nlChar]

theorem write_fresh_absent {env : WEnv}
    (hg : env.osOpenFails = false ∧ env.fdOpenFails = false ∧
      env.lockFails = false ∧ env.writeFails = false)
    {name : FName} {st : WState} (hnm : name ∉ st.names) (b : Bool)
    (C : List Char) :
    WritePreserveNoneList env false name st ⟨false, b, C⟩ =
      (some true, ⟨env.newFD, name :: st.names⟩,
        ⟨true, true, name ++ [nlChar]⟩) := by
  simp [WritePreserveNoneList, hnm, hg.1, hg.2.1, hg.2.2.1, hg.2.2.2, nlChar]

theorem write_fail {env : WEnv} {name : FName} {st : WState} (C : List Char)
    (hnm : name ∉ st.names)
    (hfail : env.osOpenFails = true ∨ env.fdOpenFails = true ∨
      env.lockFails = true) :
    ∃ stX : WState,
      WritePreserveNoneList env false name st ⟨true, true, C⟩ =
        (some false, stX, ⟨true, true, C⟩) ∧
        stX.names = name :: st.names := by
  unfold WritePreserveNoneList
  rcases hfail with hf | hf | hf
  · exact ⟨⟨st.fd, name :: st.names⟩, by simp [hnm, hf], rfl⟩
  · by_cases hos : env.osOpenFails = true
    · exact ⟨⟨st.fd, name :: st.names⟩, by simp [hnm, hos], rfl⟩
    · simp at hos
      exact ⟨⟨st.fd, name :: st.names⟩, by simp [hnm, hos, hf], rfl⟩
  · by_cases hos : env.osOpenFails = true
    · exact ⟨⟨st.fd, name :: st.names⟩, by simp [hnm, hos], rfl⟩
    · simp at hos
      by_cases hfd : env.fdOpenFails = true
      · exact ⟨⟨st.fd, name :: st.names⟩, by simp [hnm, hos, hfd], rfl⟩
      · simp at hfd
        exact ⟨⟨env.newFD, name :: st.names⟩,
          by simp [hnm, hos, hfd, hf], rfl⟩

theorem write_write_failure {env : WEnv} {name : FName} {st : WState}
    (C : List Char) (hnm : name ∉ st.names)
    (hos : env.osOpenFails = false) (hfd : env.fdOpenFails = false)
    (hlk : env.lockFails = false) (hwr : env.writeFails = true) :
    WritePreserveNoneList env false name st ⟨true, true, C⟩ =
      (none, ⟨env.newFD, name :: st.names⟩, ⟨true, true, C⟩) := by
  simp [WritePreserveNoneList, hnm, hos, hfd, hlk, hwr]

theorem write_nonregular {env : WEnv} {name : FName} {st : WState} {fs : FS}
    (hnm : name ∉ st.names) (hfd : st.fd = 0) (hp : fs.present = true)
    (hr : fs.regular = false) :
    WritePreserveNoneList env false name st fs =
      (some false, ⟨st.fd, name :: st.names⟩, fs) := by
  simp [WritePreserveNoneList, hnm, hfd, hp, hr]

theorem writeAll_cons (env : WEnv) (n : FName) (rest : List FName)
    (st : WState) (fs : FS) :
    writeAll env (n :: rest) st fs =
      writeAll env rest (WritePreserveNoneList env false n st fs).2.1
        (WritePreserveNoneList env false n st fs).2.2 := by
  simp [writeAll]

theorem writeAll_good {env : WEnv}
    (hg : env.osOpenFails = false ∧ env.fdOpenFails = false ∧
      env.lockFails = false ∧ env.writeFails = false) :
    ∀ (names : List FName) (st : WState) (C : List Char), names.Nodup →
      (∀ n ∈ names, n ∉ st.names) →
      ∃ fd, writeAll env names st ⟨true, true, C⟩ =
        (⟨fd, names.reverse ++ st.names⟩,
          ⟨true, true, C ++ flatNames names⟩) := by
  intro names
  induction names with
  | nil =>
    intro st C _ _
    exact ⟨st.fd, by simp [writeAll, flatNames]⟩
  | cons n rest ih =>
    intro st C hnd hfr
    rw [writeAll_cons,
      write_fresh_regular hg (hfr n (List.mem_cons_self _ _)) C]
    obtain ⟨fd, hrest⟩ := ih ⟨env.newFD, n :: st.names⟩ (C ++ n ++ [nlChar])
      (List.nodup_cons.mp hnd).2
      (by
        intro m hm
        rw [List.mem_cons, not_or]
        exact ⟨fun he => (List.nodup_cons.mp hnd).1 (he ▸ hm),
          hfr m (List.mem_cons_of_mem _ hm)⟩)
    refine ⟨fd, ?_⟩
    rw [hrest]
    simp [flatNames]

theorem writeAll_from_absent {env : WEnv}
    (hg : env.osOpenFails = false ∧ env.fdOpenFails = false ∧
      env.lockFails = false ∧ env.writeFails = false)
    {names : List FName} {st : WState} (b : Bool) (C0 : List Char)
    (hnd : names.Nodup) (hfr : ∀ n ∈ names, n ∉ st.names)
    (hne : names ≠ []) :
    ∃ fd, writeAll env names st ⟨false, b, C0⟩ =
      (⟨fd, names.reverse ++ st.names⟩, ⟨true, true, flatNames names⟩) := by
  cases names with
  | nil => exact absurd rfl hne
  | cons n rest =>
    rw [writeAll_cons,
      write_fresh_absent hg (hfr n (List.mem_cons_self _ _)) b C0]
    obtain ⟨fd, hrest⟩ := writeAll_good hg rest ⟨env.newFD, n :: st.names⟩
      (n ++ [nlChar]) (List.nodup_cons.mp hnd).2
      (by
        intro m hm
        rw [List.mem_cons, not_or]
        exact ⟨fun he => (List.nodup_cons.mp hnd).1 (he ▸ hm),
          hfr m (List.mem_cons_of_mem _ hm)⟩)
    refine ⟨fd, ?_⟩
    rw [hrest]
    simp [flatNames]

/-! ## Loader lemmas -/

theorem insertLine_mem (s : List FName) (line : List Char) (nm : FName) :
    nm ∈ insertLine s line ↔
      nm ∈ s ∨ (trimC line = nm ∧ nm ≠ []) := by
  unfold insertLine
  by_cases h1 : trimC line = []
  · rw [if_neg (by simp [h1])]
    constructor
    · exact Or.inl
    · rintro (h | ⟨he, hne⟩)
      · exact h
      · exact absurd (he.symm.trans h1) hne
  · by_cases h2 : trimC line ∈ s
    · rw [if_neg (by simp [h2])]
      constructor
      · exact Or.inl
      · rintro (h | ⟨he, _⟩)
        · exact h
        · exact he ▸ h2
    · rw [if_pos (by simp [h1, h2]), List.mem_cons]
      constructor
      · rintro (h | h)
        · exact Or.inr ⟨h.symm, fun he => h1 (h.symm.trans he)⟩
        · exact Or.inl h
      · rintro (h | ⟨he, _⟩)
        · exact Or.inr h
        · exact Or.inl he.symm

theorem insertLine_nodup {s : List FName} (line : List Char)
    (h : s.Nodup) : (insertLine s line).Nodup := by
  show (if (trimC line ≠ [] && !decide (trimC line ∈ s)) = true then
    trimC line :: s else s).Nodup
  split
  · next hcond =>
    rw [Bool.and_eq_true] at hcond
    refine List.nodup_cons.mpr ⟨?_, h⟩
    simpa using hcond.2
  · exact h

theorem foldl_insertLine_mem :
    ∀ (lines : List (List Char)) (acc : List FName) (nm : FName),
      nm ∈ lines.foldl insertLine acc ↔
        nm ∈ acc ∨ ∃ line ∈ lines, trimC line = nm ∧ nm ≠ [] := by
  intro lines
  induction lines with
  | nil => simp
  | cons l ls ih =>
    intro acc nm
    rw [List.foldl_cons, ih, insertLine_mem]
    simp only [List.mem_cons]
    constructor
    · rintro ((h | h) | ⟨line, hl, hp⟩)
      · exact Or.inl h
      · exact Or.inr ⟨l, Or.inl rfl, h⟩
      · exact Or.inr ⟨line, Or.inr hl, hp⟩
    · rintro (h | ⟨line, hl | hl, hp⟩)
      · exact Or.inl (Or.inl h)
      · exact Or.inl (Or.inr (hl ▸ hp))
      · exact Or.inr ⟨line, hl, hp⟩

theorem foldl_insertLine_nodup :
    ∀ (lines : List (List Char)) (acc : List FName), acc.Nodup →
      (lines.foldl insertLine acc).Nodup := by
  intro lines
  induction lines with
  | nil => exact fun acc h => h
  | cons l ls ih =>
    intro acc h
    rw [List.foldl_cons]
    exact ih _ (insertLine_nodup l h)

theorem loadLines_mem (content : List Char) (st : List FName) (nm : FName) :
    nm ∈ loadLines content st ↔
      nm ∈ st ∨ ∃ line ∈ splitNl content, trimC line = nm ∧ nm ≠ [] :=
  foldl_insertLine_mem _ _ _

theorem loadLines_nodup (content : List Char) {st : List FName}
    (h : st.Nodup) : (loadLines content st).Nodup :=
  foldl_insertLine_nodup _ _ h

theorem load_first {lenv : LEnv} (hl : lenv.readFails = false) (q : FName)
    (content : List Char) :
    LoadPreserveNoneList lenv false q [] ⟨true, true, content⟩ =
      (decide (q ∈ loadLines content []), loadLines content []) := by
  simp [LoadPreserveNoneList, hl]

theorem load_nonempty (lenv : LEnv) (isDecl : Bool) (q : FName)
    {st : List FName} (fs : FS) (h : st ≠ []) :
    LoadPreserveNoneList lenv isDecl q st fs =
      ((!isDecl && decide (q ∈ st)), st) := by
  cases isDecl
  · simp [LoadPreserveNoneList, List.isEmpty_iff, h]
  · simp [LoadPreserveNoneList]

theorem load_superset (lenv : LEnv) (isDecl : Bool) (q : FName)
    (st : List FName) (fs : FS) :
    ∀ nm ∈ st, nm ∈ (LoadPreserveNoneList lenv isDecl q st fs).2 := by
  intro nm hm
  unfold LoadPreserveNoneList
  split
  · exact hm
  · split
    · split
      · exact hm
      · split
        · exact hm
        · exact (loadLines_mem _ _ _).mpr (Or.inl hm)
    · exact hm

theorem trimC_nil : trimC [] = [] := rfl

theorem splitNl_append {n : List Char} (h : nlChar ∉ n) (rest : List Char) :
    splitNl (n ++ nlChar :: rest) = n :: splitNl rest := by
  induction n with
  | nil => simp [splitNl, nlChar]
  | cons c cs ih =>
    have hc : ¬c = Char.ofNat 10 := fun he => h (by rw [nlChar, ← he]; exact List.mem_cons_self _ _)
    have h2 : nlChar ∉ cs := fun hm => h (List.mem_cons_of_mem _ hm)
    simp [splitNl, hc, ih h2]

theorem splitNl_flatNames {names : List FName}
    (h : ∀ n ∈ names, nlChar ∉ n) :
    splitNl (flatNames names) = names ++ [[]] := by
  induction names with
  | nil => rfl
  | cons n rest ih =>
    have heq : flatNames (n :: rest) = n ++ nlChar :: flatNames rest := by
      simp [flatNames]
    rw [heq, splitNl_append (h n (List.mem_cons_self _ _)),
      ih fun m hm => h m (List.mem_cons_of_mem _ hm)]
    rfl

/-! ## Concrete example modules -/

/-- Scenario of the spec: `A` calls `B`, `B` calls `C`, `C` is the seed.
Indices: `A = 0`, `B = 1`, `C = 2`; a function's `users` list holds the uses
of that function, so `funcB.users` records the call to `B` inside `A`. -/
def funcA : Func := ⟨false, true, false, false, false, false, true, []⟩

def funcB : Func := ⟨false, true, false, false, false, false, true,
  [.call 0 true]⟩

def funcC : Func := ⟨false, true, false, true, false, false, true,
  [.call 1 true]⟩

def Mabc : List Func := [funcA, funcB, funcC]

def MabcInfected : List Func := [markInfected funcA, markInfected funcB, funcC]

def MabcWeakB : List Func :=
  [funcA, { funcB with isWeakForLinker := true }, funcC]

/-- Module refuting the direct-call reading of the use check: `H = 0` is the
seed and is called directly from `F = 1`; the only use of `F` is as an
argument operand of a call inside `G = 2` (its user is a `CallBase`, but `F`
is not the callee). `G` has external linkage. -/
def funcH : Func := ⟨false, true, false, true, false, false, true,
  [.call 1 true]⟩

def funcF : Func := ⟨false, true, false, false, false, false, true,
  [.call 2 false]⟩

def funcG : Func := ⟨false, false, false, false, false, false, true, []⟩

def MC1 : List Func := [funcH, funcF, funcG]

/-- Module for the statistic counterexample: `S = 0` is the seed, called
from the eligible `X = 1`. -/
def funcS : Func := ⟨false, true, false, true, false, false, true,
  [.call 1 true]⟩

def funcX : Func := ⟨false, true, false, false, false, false, true, []⟩

def MC4 : List Func := [funcS, funcX]

def MC4infected : List Func := [funcS, markInfected funcX]

/-- Module whose seed has a caller without a machine function. -/
def funcXnoMF : Func := ⟨false, true, false, false, false, false, false, []⟩

def MC9 : List Func := [funcS, funcXnoMF]

def fooName : FName := ['f', 'o', 'o']

def barName : FName := ['b', 'a', 'r']

/-! ## Eligible caller chains (the hypothesis of the completeness claim) -/

/-- Caller chains from a seed in which every function after the seed is
infectable and has all of its uses as DIRECT calls (the spec's
`allUsesAreDirectCalls`, stronger than the code's check). -/
inductive EligReach (M : List Func) : Nat → Prop where
  | seed (i : Nat) (hmf : (getF M i).hasMF = true)
      (hpn : hasPreserveNoneAttr (getF M i) = true) : EligReach M i
  | step (j c : Nat) (b : Bool) (hj : EligReach M j)
      (hu : Usr.call c b ∈ (getF M j).users)
      (hmf : (getF M c).hasMF = true)
      (hinf : isInfectableFunc (getF M c) = true)
      (hdir : allUsesAreDirectCalls (getF M c) = true) : EligReach M c

theorem allCB_of_direct {f : Func} (h : allUsesAreDirectCalls f = true) :
    allUsersAreCallBase f = true := by
  rw [allUsersAreCallBase, List.all_eq_true]
  rw [allUsesAreDirectCalls, List.all_eq_true] at h
  intro u hu
  cases u with
  | call c b => rfl
  | other => exact Bool.noConfusion (h _ hu)

theorem EligReach_strong {M : List Func} : ∀ {i : Nat}, EligReach M i →
    Reach M i ∧ expandable (getF M i) = true := by
  intro i h
  induction h with
  | seed j hmf hpn =>
    exact ⟨Reach.seed j hmf hpn, by simp [expandable, hpn]⟩
  | step j c b hj hu hmf hinf hdir ihj =>
    have hel : elig (getF M c) = true := by
      rw [elig, hinf, allCB_of_direct hdir]
      rfl
    exact ⟨Reach.caller j c b ihj.1 ihj.2 hu hmf,
      by simp [expandable, hel]⟩

/-! ## Claim theorems: propagation engine -/

/-- Claim C1 (code_bug evaluation).  The claim states that a newly infected
function must have had every use as the DIRECT CALLEE of a call. The code
only checks `isa<CallBase>(U)` on each user (lines 160-162), which also
accepts a use of the function as an argument operand of a call.  In module
`MC1`, function `F` (index 1) starts unattributed, is infectable, and its
only use is as a call argument (`allUsesAreDirectCalls` is false while every
user is a `CallBase`); the run nevertheless infects `F`. -/
theorem C1_unsound_infection_at_call_argument_use :
    hasPreserveNoneAttr (getF MC1 1) = false ∧
    isInfectableFunc (getF MC1 1) = true ∧
    allUsersAreCallBase (getF MC1 1) = true ∧
    allUsesAreDirectCalls (getF MC1 1) = false ∧
    (runOnModule true MC1 0).res = RunRes.ok ∧
    hasPreserveNoneAttr (getF (runOnModule true MC1 0).funcs 1) = true := by
  decide

/-- Claim C4, counterexample.  The claim says a second run of the engine on
the already-infected program returns false ("no new infections").  The code
returns `NumPreserveNoneInfected > 0` (line 185), a process-global statistic
that is never reset: after a first run that infected `X` (statistic 1), the
second run changes nothing but still returns true. -/
theorem C4_counterexample_second_run_returns_true :
    runOnModule true MC4 0 = ⟨RunRes.ok, MC4infected, true, 1⟩ ∧
    runOnModule true MC4infected 1 = ⟨RunRes.ok, MC4infected, true, 1⟩ ∧
    ¬(runOnModule true MC4infected 1).changed = false := by
  decide

/-- Claim C4, amended.  `runOnModule` returns `NumPreserveNoneInfected > 0`
where the statistic is cumulative across runs in a process: the returned
boolean equals "the cumulative statistic after this run is positive" (which
equals "some function was newly infected during this invocation" only when
the statistic starts at zero).  A second run on the resulting program makes
no attribute changes and leaves the statistic unchanged, but returns true
(not false) whenever the cumulative statistic is positive. -/
theorem C4_amended_cumulative_result_and_idempotence (M : List Func)
    (s : Nat) (hwf : wfModule M = true) (hne : M.isEmpty = false) :
    (runOnModule true M s).res = RunRes.ok ∧
    (runOnModule true M s).changed =
      decide ((runOnModule true M s).stat > 0) ∧
    s ≤ (runOnModule true M s).stat ∧
    runOnModule true (runOnModule true M s).funcs
        (runOnModule true M s).stat =
      ⟨RunRes.ok, (runOnModule true M s).funcs,
        decide ((runOnModule true M s).stat > 0),
        (runOnModule true M s).stat⟩ := by
  obtain ⟨vis, hvis, _, he⟩ := runOnModule_char M s hwf hne
  have hne1 : (funcsOf M vis).isEmpty = false := by
    cases hie : (funcsOf M vis).isEmpty
    · rfl
    · exfalso
      rw [List.isEmpty_iff] at hie
      have hlen : M.length = 0 := by
        rw [← length_funcsOf M vis, hie]
        rfl
      rw [List.length_eq_zero.mp hlen] at hne
      exact Bool.noConfusion hne
  obtain ⟨vis2, hvis2, _, he2⟩ := runOnModule_char (funcsOf M vis)
    (s + statOf M vis) (wfModule_funcsOf vis hwf) hne1
  have hstat2 : statOf (funcsOf M vis) vis2 = 0 := statOf_second M vis vis2 hvis hvis2
  have hfun2 : funcsOf (funcsOf M vis) vis2 = funcsOf M vis :=
    funcsOf_eq_self (no_second_infection hvis hvis2)
  rw [he]
  refine ⟨rfl, rfl, by simp, ?_⟩
  show runOnModule true (funcsOf M vis) (s + statOf M vis) = _
  rw [he2, hstat2, hfun2]
  simp

/-- Claim C6.  Completeness: under the no-crash precondition `wfModule`,
every function reachable from a seed through a caller chain whose members
(after the seed) are infectable and have all uses as direct calls carries
the attribute when the run finishes.  Concretely, on `A calls B`, `B calls
C` with seed `C`, the final attributed set is `{A, B, C}` (both `A` and `B`
get marked, statistic 2), and with `B` weak-for-linker the module is left
unchanged, so only `C` is attributed. -/
theorem C6_completeness :
    (∀ (M : List Func) (s i : Nat), wfModule M = true → M.isEmpty = false →
      EligReach M i →
      hasPreserveNoneAttr (getF (runOnModule true M s).funcs i) = true) ∧
    runOnModule true Mabc 0 = ⟨RunRes.ok, MabcInfected, true, 2⟩ ∧
    runOnModule true MabcWeakB 0 = ⟨RunRes.ok, MabcWeakB, false, 0⟩ := by
  refine ⟨?_, by decide, by decide⟩
  intro M s i hwf hne her
  obtain ⟨vis, hvis, _, he⟩ := runOnModule_char M s hwf hne
  rw [he]
  show hasPreserveNoneAttr (getF (funcsOf M vis) i) = true
  rw [pn_funcsOf]
  obtain ⟨hr, hexp⟩ := EligReach_strong her
  by_cases hpn : hasPreserveNoneAttr (getF M i) = true
  · rw [hpn]
    rfl
  · have hpn0 : hasPreserveNoneAttr (getF M i) = false := by simpa using hpn
    have hel : elig (getF M i) = true := by
      rw [expandable, hpn0] at hexp
      simpa using hexp
    have hmem : i ∈ vis := (hvis i).mpr hr
    simp [infCond, hmem, hpn0, hel]

/-- Witness for C6 at the concrete scenario: `A` (index 0) is attributed
after the run on `Mabc`, obtained through the eligible chain
`C` (seed) to `B` to `A`. -/
theorem C6_completeness_witness :
    hasPreserveNoneAttr (getF (runOnModule true Mabc 0).funcs 0) = true :=
  C6_completeness.1 Mabc 0 0 (by decide) (by decide)
    (EligReach.step 1 0 true
      (EligReach.step 2 1 true
        (EligReach.seed 2 (by decide) (by decide))
        (by decide) (by decide) (by decide) (by decide))
      (by decide) (by decide) (by decide) (by decide))

/-- Claim C7.  Termination: for every module (cycles included), the worklist
loop run with `propFuel` fuel never exhausts it, `runOnModule` never reports
fuel exhaustion, and the visited list — the functions that were processed
and expanded — contains each function at most once. -/
theorem C7_termination_at_most_once (M : List Func) (infectOpt : Bool)
    (s : Nat) :
    (runOnModule infectOpt M s).res ≠ RunRes.fuelOut ∧
    (propLoop (propFuel M) ⟨M, [], seedWork M, s⟩).1 ≠ RunRes.fuelOut ∧
    (propLoop (propFuel M) ⟨M, [], seedWork M, s⟩).2.visited.Nodup := by
  have h := propLoop_no_fuelOut (propFuel M) ⟨M, [], seedWork M, s⟩
    (initial_WeakInv M s) (initial_measure_lt M s)
  refine ⟨?_, h.1, h.2⟩
  unfold runOnModule
  cases infectOpt
  · simp
  · by_cases hie : M.isEmpty = true
    · rw [if_neg (by simp), if_pos hie]
      simp
    · rw [if_neg (by simp), if_neg hie]
      exact h.1

/-- Witness for C7 at a concrete module. -/
theorem C7_termination_witness :
    (runOnModule true Mabc 0).res ≠ RunRes.fuelOut :=
  (C7_termination_at_most_once Mabc true 0).1

/-- Claim C9.  The traversal dereferences `MMI.getMachineFunction(*Caller)`
results and popped worklist entries without null checks: on `MC9`, whose
seed has a caller without a machine function, the run reaches the null
dereference (`nullMF`).  Under the precondition that every recorded caller
has a machine function (and seeded attributed functions have only call
users), the run always finishes with `ok` — no crash branch is
reachable. -/
theorem C9_machine_function_precondition :
    (runOnModule true MC9 0).res = RunRes.nullMF ∧
    ∀ (M : List Func) (s : Nat), wfModule M = true →
      (runOnModule true M s).res = RunRes.ok := by
  refine ⟨by decide, ?_⟩
  intro M s hwf
  by_cases hie : M.isEmpty = true
  · unfold runOnModule
    rw [if_neg (by simp), if_pos hie]
  · have hne : M.isEmpty = false := by simpa using hie
    obtain ⟨vis, _, _, he⟩ := runOnModule_char M s hwf hne
    rw [he]

/-- Witness for C9 at a concrete well-formed module. -/
theorem C9_machine_function_precondition_witness :
    (runOnModule true Mabc 0).res = RunRes.ok :=
  C9_machine_function_precondition.2 Mabc 0 (by decide)

/-- Witness for C4 (amended) at a concrete module. -/
theorem C4_amended_witness :
    (runOnModule true MC4 0).res = RunRes.ok ∧
    (runOnModule true MC4 0).changed =
      decide ((runOnModule true MC4 0).stat > 0) ∧
    0 ≤ (runOnModule true MC4 0).stat ∧
    runOnModule true (runOnModule true MC4 0).funcs
        (runOnModule true MC4 0).stat =
      ⟨RunRes.ok, (runOnModule true MC4 0).funcs,
        decide ((runOnModule true MC4 0).stat > 0),
        (runOnModule true MC4 0).stat⟩ :=
  C4_amended_cumulative_result_and_idempotence MC4 0 (by decide) (by decide)

/-! ## Claim theorems: registry writer and loader -/

/-- Claim C2, counterexample.  The claim says the writer returns false on a
write failure.  The source never checks the write at line 235: with a fresh
definition name and a failing write (all opens and the lock succeeding),
the call does not return `some false` — nothing is durably appended, the
name is already in the dedup set, and the pending stream error aborts the
process in the `raw_fd_ostream` destructor (result `none`) instead of
producing a false return. -/
theorem C2_counterexample_write_failure_not_false :
    (WritePreserveNoneList ⟨false, false, false, true, 3⟩ false fooName
      ⟨0, []⟩ ⟨true, true, []⟩).1 ≠ some false ∧
    WritePreserveNoneList ⟨false, false, false, true, 3⟩ false fooName
      ⟨0, []⟩ ⟨true, true, []⟩ =
      (none, ⟨3, [fooName]⟩, ⟨true, true, []⟩) := by
  refine ⟨by decide, by decide⟩

/-- Claim C2, amended.  Contract of a single `WritePreserveNoneList` call,
by cases: declarations and duplicate names return false and change nothing;
a fresh definition name, in an environment where the opens, the lock and
the write all succeed, appends exactly `<name>\n` to the file (creating it
when absent) and returns true; any injected open or lock failure, and a
first call against an existing non-regular path, return false and append
nothing.  A write failure, however, is never checked by the function: the
line is not durably appended and no false return is produced — the pending
stream error instead aborts the process at function exit (result
`none`). -/
theorem C2_amended_writer_append_contract :
    (∀ (env : WEnv) (name : FName) (st : WState) (fs : FS),
      WritePreserveNoneList env true name st fs = (some false, st, fs)) ∧
    (∀ (env : WEnv) (name : FName) (st : WState) (fs : FS),
      name ∈ st.names →
      WritePreserveNoneList env false name st fs = (some false, st, fs)) ∧
    (∀ (env : WEnv) (name : FName) (st : WState) (C : List Char),
      env.osOpenFails = false → env.fdOpenFails = false →
      env.lockFails = false → env.writeFails = false → name ∉ st.names →
      WritePreserveNoneList env false name st ⟨true, true, C⟩ =
        (some true, ⟨env.newFD, name :: st.names⟩,
          ⟨true, true, C ++ name ++ [nlChar]⟩)) ∧
    (∀ (env : WEnv) (name : FName) (st : WState) (b : Bool) (C : List Char),
      env.osOpenFails = false → env.fdOpenFails = false →
      env.lockFails = false → env.writeFails = false → name ∉ st.names →
      WritePreserveNoneList env false name st ⟨false, b, C⟩ =
        (some true, ⟨env.newFD, name :: st.names⟩,
          ⟨true, true, name ++ [nlChar]⟩)) ∧
    (∀ (env : WEnv) (name : FName) (st : WState) (C : List Char),
      name ∉ st.names →
      (env.osOpenFails = true ∨ env.fdOpenFails = true ∨
        env.lockFails = true) →
      (WritePreserveNoneList env false name st
        ⟨true, true, C⟩).1 = some false ∧
      (WritePreserveNoneList env false name st
        ⟨true, true, C⟩).2.2.content = C) ∧
    (∀ (env : WEnv) (name : FName) (st : WState) (fs : FS),
      name ∉ st.names → st.fd = 0 → fs.present = true → fs.regular = false →
      (WritePreserveNoneList env false name st fs).1 = some false) ∧
    (∀ (env : WEnv) (name : FName) (st : WState) (C : List Char),
      name ∉ st.names →
      env.osOpenFails = false → env.fdOpenFails = false →
      env.lockFails = false → env.writeFails = true →
      WritePreserveNoneList env false name st ⟨true, true, C⟩ =
        (none, ⟨env.newFD, name :: st.names⟩, ⟨true, true, C⟩)) := by
  refine ⟨write_decl, fun env name st fs h => write_dup env fs h,
    ?_, ?_, ?_, ?_, ?_⟩
  · intro env name st C h1 h2 h3 h4 h5
    exact write_fresh_regular ⟨h1, h2, h3, h4⟩ h5 C
  · intro env name st b C h1 h2 h3 h4 h5
    exact write_fresh_absent ⟨h1, h2, h3, h4⟩ h5 b C
  · intro env name st C h1 h2
    obtain ⟨stX, he, _⟩ := write_fail C h1 h2
    rw [he]
    exact ⟨rfl, rfl⟩
  · intro env name st fs h1 h2 h3 h4
    rw [write_nonregular h1 h2 h3 h4]
  · intro env name st C h1 h2 h3 h4 h5
    exact write_write_failure C h1 h2 h3 h4 h5

/-- Witness for C2 (amended): a fresh definition name appended to an
existing empty regular file. -/
theorem C2_amended_writer_append_contract_witness :
    WritePreserveNoneList ⟨false, false, false, false, 3⟩ false fooName
        ⟨0, []⟩ ⟨true, true, []⟩ =
      (some true, ⟨3, [fooName]⟩,
        ⟨true, true, [] ++ fooName ++ [nlChar]⟩) :=
  C2_amended_writer_append_contract.2.2.1 ⟨false, false, false, false, 3⟩
    fooName ⟨0, []⟩ [] rfl rfl rfl rfl (by decide)

theorem round_trip_mem (env : WEnv) (lenv : LEnv) (names : List FName)
    (b : Bool) (C0 : List Char) (q : FName)
    (hg : env.osOpenFails = false ∧ env.fdOpenFails = false ∧
      env.lockFails = false ∧ env.writeFails = false)
    (hl : lenv.readFails = false) (hnd : names.Nodup)
    (hn : ∀ n ∈ names, n ≠ [] ∧ trimC n = n ∧ nlChar ∉ n) :
    (∀ nm, nm ∈ (LoadPreserveNoneList lenv false q []
      (writeAll env names ⟨0, []⟩ ⟨false, b, C0⟩).2).2 ↔ nm ∈ names) ∧
    (LoadPreserveNoneList lenv false q []
      (writeAll env names ⟨0, []⟩ ⟨false, b, C0⟩).2).2.Nodup := by
  by_cases hne : names = []
  · subst hne
    constructor
    · intro nm
      simp [writeAll, LoadPreserveNoneList]
    · exact List.nodup_nil
  · have hfr : ∀ n ∈ names, n ∉ (⟨0, []⟩ : WState).names :=
      fun n _ => List.not_mem_nil n
    obtain ⟨fd, hw⟩ := writeAll_from_absent hg b C0 hnd hfr hne
    rw [hw]
    show (∀ nm, nm ∈ (LoadPreserveNoneList lenv false q []
      ⟨true, true, flatNames names⟩).2 ↔ nm ∈ names) ∧
      (LoadPreserveNoneList lenv false q []
        ⟨true, true, flatNames names⟩).2.Nodup
    rw [load_first hl]
    refine ⟨?_, loadLines_nodup _ List.nodup_nil⟩
    intro nm
    show nm ∈ loadLines (flatNames names) [] ↔ nm ∈ names
    rw [loadLines_mem]
    simp only [List.not_mem_nil, false_or]
    rw [splitNl_flatNames fun n hn2 => (hn n hn2).2.2]
    constructor
    · rintro ⟨line, hline, heq, hne2⟩
      rcases List.mem_append.mp hline with hm | hm
      · have hline2 : line = nm := ((hn line hm).2.1).symm.trans heq
        exact hline2 ▸ hm
      · simp at hm
        subst hm
        exact absurd heq.symm (by simpa [trimC_nil] using hne2)
    · intro hm
      exact ⟨nm, List.mem_append_left _ hm, (hn nm hm).2.1, (hn nm hm).1⟩

/-- Claim C3.  Registry round trip: write a duplicate-free list of
definition names (none empty, none containing a newline, none with
surrounding whitespace) starting from an absent file, then load in a fresh
process state; the resulting Name Set contains exactly those names, without
duplicates, and writing any permutation of the names yields the same
set. -/
theorem C3_registry_round_trip (env : WEnv) (lenv : LEnv)
    (names : List FName) (b : Bool) (C0 : List Char) (q : FName)
    (hg : env.osOpenFails = false ∧ env.fdOpenFails = false ∧
      env.lockFails = false ∧ env.writeFails = false)
    (hl : lenv.readFails = false) (hnd : names.Nodup)
    (hn : ∀ n ∈ names, n ≠ [] ∧ trimC n = n ∧ nlChar ∉ n) :
    (∀ nm, nm ∈ (LoadPreserveNoneList lenv false q []
      (writeAll env names ⟨0, []⟩ ⟨false, b, C0⟩).2).2 ↔ nm ∈ names) ∧
    (LoadPreserveNoneList lenv false q []
      (writeAll env names ⟨0, []⟩ ⟨false, b, C0⟩).2).2.Nodup ∧
    (∀ names2, names2.Perm names → ∀ nm,
      nm ∈ (LoadPreserveNoneList lenv false q []
        (writeAll env names2 ⟨0, []⟩ ⟨false, b, C0⟩).2).2 ↔
      nm ∈ (LoadPreserveNoneList lenv false q []
        (writeAll env names ⟨0, []⟩ ⟨false, b, C0⟩).2).2) := by
  obtain ⟨hmem, hnd2⟩ := round_trip_mem env lenv names b C0 q hg hl hnd hn
  refine ⟨hmem, hnd2, ?_⟩
  intro names2 hp nm
  obtain ⟨hmem2, _⟩ := round_trip_mem env lenv names2 b C0 q hg hl
    (hp.nodup_iff.mpr hnd) (fun n hn2 => hn n (hp.mem_iff.mp hn2))
  rw [hmem2 nm, hmem nm, hp.mem_iff]

/-- Witness for C3 with the two names `foo` and `bar`. -/
theorem C3_registry_round_trip_witness :
    fooName ∈ (LoadPreserveNoneList ⟨false⟩ false fooName []
      (writeAll ⟨false, false, false, false, 3⟩ [fooName, barName] ⟨0, []⟩
        ⟨false, false, []⟩).2).2 :=
  ((C3_registry_round_trip ⟨false, false, false, false, 3⟩ ⟨false⟩
    [fooName, barName] false [] fooName ⟨rfl, rfl, rfl, rfl⟩ rfl (by decide)
    (by decide)).1 fooName).mpr (by decide)

/-- Claim C5, counterexample.  The loader re-reads whenever `FuncNameSet` is
empty, not only on the first invocation: a first call with the file absent
fails (set stays empty), and a later call in the same process state, with
the file now present, does read it and loads `foo` — the claim as stated
says no later invocation re-reads after a failed first attempt, which would
leave the set empty. -/
theorem C5_counterexample_reread_after_failure :
    LoadPreserveNoneList ⟨false⟩ false fooName [] ⟨false, false, []⟩ =
      (false, []) ∧
    LoadPreserveNoneList ⟨false⟩ false fooName []
      ⟨true, true, fooName ++ [nlChar]⟩ = (true, [fooName]) ∧
    (LoadPreserveNoneList ⟨false⟩ false fooName []
      ⟨true, true, fooName ++ [nlChar]⟩).2 ≠ [] := by
  refine ⟨by decide, by decide, by decide⟩

/-- Claim C5, amended.  The read is gated on `FuncNameSet.empty()` (line
254): whenever the set is nonempty the loader touches neither the file nor
the set and only answers the membership query; and no invocation ever
removes entries from the set (the set after any call contains the set
before it).  A failed attempt leaves the set empty, so the next invocation
tries the read again. -/
theorem C5_amended_load_gate :
    (∀ (lenv : LEnv) (isDecl : Bool) (q : FName) (st : List FName) (fs : FS),
      st ≠ [] → LoadPreserveNoneList lenv isDecl q st fs =
        ((!isDecl && decide (q ∈ st)), st)) ∧
    (∀ (lenv : LEnv) (isDecl : Bool) (q : FName) (st : List FName) (fs : FS),
      ∀ nm ∈ st, nm ∈ (LoadPreserveNoneList lenv isDecl q st fs).2) :=
  ⟨fun lenv isDecl q _ fs h => load_nonempty lenv isDecl q fs h,
    load_superset⟩

/-- Witness for C5 (amended): with a nonempty set, a membership hit answers
true and the set and file are not consulted. -/
theorem C5_amended_load_gate_witness :
    LoadPreserveNoneList ⟨false⟩ false fooName [fooName]
        ⟨false, false, []⟩ =
      ((!false && decide (fooName ∈ [fooName])), [fooName]) :=
  C5_amended_load_gate.1 ⟨false⟩ false fooName [fooName] ⟨false, false, []⟩
    (by decide)

/-- Claim C8.  First read on an existing regular file with an empty set:
the resulting Name Set holds exactly the nonempty trimmed lines of the
content (split on newline), each exactly once, and the returned flag is
membership of the queried name in that set. -/
theorem C8_loader_parsing (lenv : LEnv) (q : FName) (content : List Char)
    (hl : lenv.readFails = false) :
    (∀ nm, nm ∈ (LoadPreserveNoneList lenv false q []
        ⟨true, true, content⟩).2 ↔
      nm ≠ [] ∧ nm ∈ (splitNl content).map trimC) ∧
    (LoadPreserveNoneList lenv false q [] ⟨true, true, content⟩).2.Nodup ∧
    (LoadPreserveNoneList lenv false q [] ⟨true, true, content⟩).1 =
      decide (q ∈ (LoadPreserveNoneList lenv false q []
        ⟨true, true, content⟩).2) := by
  rw [load_first hl]
  refine ⟨?_, loadLines_nodup _ List.nodup_nil, rfl⟩
  intro nm
  show nm ∈ loadLines content [] ↔ nm ≠ [] ∧ nm ∈ (splitNl content).map trimC
  rw [loadLines_mem]
  simp only [List.not_mem_nil, false_or, List.mem_map]
  constructor
  · rintro ⟨line, hl2, he, hne⟩
    exact ⟨hne, line, hl2, he⟩
  · rintro ⟨hne, line, hl2, he⟩
    exact ⟨line, hl2, he, hne⟩

/-- Witness for C8 on the content `" foo\t\n\nfoo\nbar"`. -/
theorem C8_loader_parsing_witness :
    (LoadPreserveNoneList ⟨false⟩ false fooName []
      ⟨true, true, [' ', 'f', 'o', 'o', Char.ofNat 9, nlChar, nlChar,
        'f', 'o', 'o', nlChar, 'b', 'a', 'r']⟩).2.Nodup :=
  (C8_loader_parsing ⟨false⟩ fooName
    [' ', 'f', 'o', 'o', Char.ofNat 9, nlChar, nlChar,
      'f', 'o', 'o', nlChar, 'b', 'a', 'r'] rfl).2.1

/-- Claim C10.  The dedup insert happens before any file operation (line
195): when the open or the lock fails, the call returns false, the file is
unchanged, but the name is already in `FuncNameSet`; and any later call for
a name in `FuncNameSet` returns false at the dedup check without touching
the file — so the name is never durably written in this process. -/
theorem C10_writer_dedup_not_error_atomic :
    (∀ (env : WEnv) (name : FName) (st : WState) (C : List Char),
      name ∉ st.names →
      (env.osOpenFails = true ∨ env.fdOpenFails = true ∨
        env.lockFails = true) →
      (WritePreserveNoneList env false name st
        ⟨true, true, C⟩).1 = some false ∧
      (WritePreserveNoneList env false name st
        ⟨true, true, C⟩).2.1.names = name :: st.names ∧
      (WritePreserveNoneList env false name st ⟨true, true, C⟩).2.2 =
        ⟨true, true, C⟩) ∧
    (∀ (env : WEnv) (name : FName) (st : WState) (fs : FS),
      name ∈ st.names →
      WritePreserveNoneList env false name st fs =
        (some false, st, fs)) := by
  constructor
  · intro env name st C h1 h2
    obtain ⟨stX, he, hn⟩ := write_fail C h1 h2
    rw [he]
    exact ⟨rfl, hn, rfl⟩
  · exact fun env name st fs h => write_dup env fs h

/-- Witness for C10: a lock failure inserts `foo` into the dedup set while
appending nothing and returning false. -/
theorem C10_writer_dedup_not_error_atomic_witness :
    (WritePreserveNoneList ⟨false, false, true, false, 3⟩ false fooName
      ⟨0, []⟩ ⟨true, true, []⟩).1 = some false ∧
    (WritePreserveNoneList ⟨false, false, true, false, 3⟩ false fooName
      ⟨0, []⟩ ⟨true, true, []⟩).2.1.names = [fooName] ∧
    (WritePreserveNoneList ⟨false, false, true, false, 3⟩ false fooName
      ⟨0, []⟩ ⟨true, true, []⟩).2.2 = ⟨true, true, []⟩ :=
  C10_writer_dedup_not_error_atomic.1 ⟨false, false, true, false, 3⟩
    fooName ⟨0, []⟩ [] (by decide) (Or.inr (Or.inr rfl))

end X86PreserveNone
